import Mathlib

/-!
A shallow embedding of the skip list in `src/skip.cpp` (repository repmop/datalib).

Modelling conventions, matching the C source:

* `NUM_LISTS = 4` lanes, as in the source (`#define NUM_LISTS 4`).
* Every `malloc(NUM_LISTS * sizeof(list_ele_t))` yields a *block* of four
  node slots.  All pointers that ever arise in the program are `&block[i]`,
  so a pointer is modelled as a pair (block id, slot).  The source's pointer
  arithmetic (`pt -= 1`, `prev_pts[i] - i`, `prev_pts[0] + i`, `old_head[i]`)
  becomes arithmetic on the slot component.
* A slot holds `none` while its bytes are indeterminate (fresh `malloc`
  memory, or the out-of-bounds bytes that `memcpy(node, data, NUM_LISTS *
  sizeof(list_ele_t))` copies past the end of the caller's single-node
  `data`).  Reading an indeterminate slot, dereferencing NULL, going out of
  bounds, and a failed `assert` are all undefined behaviour and make the
  modelled operation return `none`.
* `random()`-driven coin flips (`sl_roll`) and `malloc` success are
  nondeterministic inputs; they are threaded as explicit `List Bool`
  oracles, popped in program order (an exhausted oracle defaults to
  `false` for rolls and `true` for allocations — all finite behaviours of
  the C program are covered by some finite oracle list).
* Loops (`while` walks) are given explicit fuel; fuel exhaustion also
  yields `none`, so every `some` result corresponds to a real, finite,
  UB-free execution of the C code.
-/

/-- Number of lanes, `#define NUM_LISTS 4` in skip.cpp. -/
def NUM_LISTS : Nat := 4

/-- A pointer `&block[slot]`: every pointer produced by skip.cpp points into
one of the `NUM_LISTS`-node blocks it allocates. -/
structure Ptr where
  blk : Nat
  slot : Nat
deriving DecidableEq, Repr

/-- One `list_ele_t` record: payload handle, payload size, sort key (`hash`),
and the forward link.  The `value` payload handle is opaque and modelled as
an integer; the `hash` key is modelled as an integer compared only through
the external comparator. -/
structure Node where
  value : Int
  psize : Nat
  hash : Int
  next : Option Ptr
deriving DecidableEq, Repr

/-- A `malloc(NUM_LISTS * sizeof(list_ele_t))` block: four slots, `none`
while the slot's bytes are indeterminate. -/
abbrev Block := List (Option Node)

/-- A freshly malloc'ed block: all four slots indeterminate. -/
def undefBlock : Block := [none, none, none, none]

/-- The skip list state: the allocated blocks (block id = allocation order)
and the four lane heads (`heads[0..3]`, `NULL` = `none`). -/
structure SL where
  blocks : List Block
  heads : List (Option Ptr)
deriving DecidableEq, Repr

/-- A fresh `skip_list`: no allocations, all heads NULL (constructor,
skip.cpp lines 37-41). -/
def SL.empty : SL := ⟨[], [none, none, none, none]⟩

/-- `heads[i]`. -/
def getHead (s : SL) (i : Nat) : Option Ptr := (s.heads.get? i).bind id

/-- Dereference a pointer.  `none` when the block id is out of range, the
slot is out of range, or the slot's bytes are indeterminate (all UB in C). -/
def readCell (s : SL) (p : Ptr) : Option Node :=
  ((s.blocks.get? p.blk).bind fun b => b.get? p.slot).bind id

/-- Store a whole node record at a pointer (a `memcpy` of one
`list_ele_t`).  Writing to an allocated slot is always permitted, defined
or not; `none` only when the pointer is outside every allocation. -/
def writeCell (s : SL) (p : Ptr) (nd : Node) : Option SL :=
  match s.blocks.get? p.blk with
  | none => none
  | some b =>
    if p.slot < b.length then
      some { s with blocks := s.blocks.set p.blk (b.set p.slot (some nd)) }
    else none

/-- `p->next = q`.  The source only ever assigns `next` on records it has
already read or fully written, so the slot must be defined. -/
def writeNext (s : SL) (p : Ptr) (q : Option Ptr) : Option SL :=
  match readCell s p with
  | none => none
  | some nd => writeCell s p { nd with next := q }

/-- Pointer subtraction `p - k` (slot arithmetic within a block);
underflow would leave the block, which the source never dereferences. -/
def psub (p : Ptr) (k : Nat) : Option Ptr :=
  if k ≤ p.slot then some ⟨p.blk, p.slot - k⟩ else none

/-- Pointer addition `p + k` within a block. -/
def padd (p : Ptr) (k : Nat) : Ptr := ⟨p.blk, p.slot + k⟩

/-- Pop one value from an oracle list, with a default once exhausted. -/
def popB (dflt : Bool) (l : List Bool) : Bool × List Bool :=
  match l with
  | [] => (dflt, [])
  | b :: r => (b, r)

/-- Runtime bundle: list state plus the `malloc`-success and coin-flip
oracles. -/
structure RT where
  sl : SL
  allocs : List Bool
  rolls : List Bool
deriving Repr

/-- Result of one lane's walk inside `sl_insert`'s descent
(skip.cpp lines 93-113). -/
inductive WalkRes where
  | fellThrough (pt : Ptr)
  | insertHere (prevI : Ptr)
deriving DecidableEq, Repr

/-- The inner `while (pt->next != NULL)` of `sl_insert`'s descent at one
lane: advance while `1 == sl_compare(node->hash, pt->next->hash)`, keeping
`prev_pts[i]` one node behind; on any other comparison result take the
insert branch with the current `prev_pts[i]`; on a null `next` fall
through (after which the C code sets `prev_pts[i] = pt` and drops a lane). -/
def walk (cmp : Int → Int → Int) (s : SL) (h : Int) :
    Ptr → Ptr → Nat → Option WalkRes
  | _, _, 0 => none
  | pt, prevI, fuel + 1 =>
    match readCell s pt with
    | none => none
    | some nd =>
      match nd.next with
      | none => some (.fellThrough pt)
      | some nxt =>
        match readCell s nxt with
        | none => none
        | some nnd =>
          if cmp h nnd.hash = 1 then walk cmp s h nxt pt fuel
          else some (.insertHere prevI)

/-- `skip_list::ll_insert`'s scan loop (skip.cpp lines 215-227): walk
forward from `prev`, inserting the new node before the first strictly
greater element, else appending at the tail. -/
def llScan (cmp : Int → Int → Int) (np : Ptr) (h : Int) :
    SL → Ptr → Nat → Option (Ptr × SL)
  | _, _, 0 => none
  | s, prev, fuel + 1 =>
    match readCell s prev with
    | none => none
    | some pnd =>
      match pnd.next with
      | none =>
        match writeNext s prev (some np) with
        | none => none
        | some s1 => (writeNext s1 np none).map fun s2 => (prev, s2)
      | some pt =>
        match readCell s pt with
        | none => none
        | some ptnd =>
          if 0 < cmp ptnd.hash h then
            match writeNext s np (some pt) with
            | none => none
            | some s1 => (writeNext s1 prev (some np)).map fun s2 => (prev, s2)
          else llScan cmp np h s pt fuel

/-- `skip_list::ll_insert` (skip.cpp lines 208-229): assert the new key is
not below `start`'s key (a failed assert aborts, modelled as `none`); on a
tie insert immediately after `start`, otherwise scan.  Returns the
predecessor after which the node was spliced. -/
def ll_insert (cmp : Int → Int → Int) (s : SL) (np : Ptr) (h : Int)
    (start : Ptr) (fuel : Nat) : Option (Ptr × SL) :=
  match readCell s start with
  | none => none
  | some snd =>
    if cmp h snd.hash < 0 then none
    else if cmp h snd.hash = 0 then
      match writeNext s np snd.next with
      | none => none
      | some s1 => (writeNext s1 start (some np)).map fun s2 => (start, s2)
    else llScan cmp np h s start fuel

/-- `skip_list::sl_promote`'s promotion loop (skip.cpp lines 194-206) with
the lane predecessors already resolved: `p1 p2 p3` are the values of
`prev_pts[1..3]` after the `prev_pts[i] = prev_pts[0] + i` overwrite for
lanes up to `list_num` (callers pass `padd ret i` for those lanes and the
descent's fell-through nodes above).  Each iteration pops a roll first, as
`while (sl_roll() && i < NUM_LISTS)` does, copies `node[0]` into
`node[i]`, links it after `prev_pts[i]`, and advances. -/
def sl_promote (s : SL) (rolls : List Bool) (nb : Nat)
    (p1 p2 p3 : Ptr) : Nat → Nat → Option (SL × List Bool)
  | _, 0 => none
  | i, fuel + 1 =>
    let (r, rolls1) := popB false rolls
    if r && decide (i < NUM_LISTS) then
      let pi : Ptr := if i = 1 then p1 else if i = 2 then p2 else p3
      match readCell s ⟨nb, 0⟩ with
      | none => none
      | some nd0 =>
        match readCell s pi with
        | none => none
        | some pnd =>
          match writeCell s ⟨nb, i⟩ { nd0 with next := pnd.next } with
          | none => none
          | some s1 =>
            match writeNext s1 pi (some ⟨nb, i⟩) with
            | none => none
            | some s2 => sl_promote s2 rolls1 nb p1 p2 p3 (i + 1) fuel
    else some (s, rolls1)

/-- Tail of the descent's insert branch (skip.cpp lines 104-108): splice
with `ll_insert` from `prev_pts[i] - i`, then promote, with
`prev_pts[j] = prev_pts[0] + j` for the lanes at or below the branch lane
and the descent's recorded nodes above it. -/
def insEnd (cmp : Int → Int → Int) (s : SL) (np : Ptr) (h : Int)
    (start : Ptr) (mkPrevs : Ptr → Ptr × Ptr × Ptr) (rolls : List Bool)
    (fuel : Nat) : Option (SL × List Bool) :=
  match ll_insert cmp s np h start fuel with
  | none => none
  | some (ret, s1) =>
    match mkPrevs ret with
    | (p1, p2, p3) => sl_promote s1 rolls np.blk p1 p2 p3 1 (NUM_LISTS + 1)

/-- The traversal branch of `sl_insert` (skip.cpp lines 88-118), with the
lane loop unrolled (`i = 3, 2, 1, 0`).  Each lane walks; falling through
records `prev_pts[i] = pt` and drops to `pt - 1`; the insert branch
computes `prev_pts[0] = prev_pts[i] - i`, splices, and promotes.  After
lane 0 falls through, the node is appended (`prev_pts[0]->next = node;
node->next = NULL`) and promoted from the descent's predecessors.  (The
dead `pt -= 1` the C loop performs after lane 0 is never dereferenced and
is omitted.) -/
def slInsertGo (cmp : Int → Int → Int) (s : SL) (np : Ptr) (h : Int)
    (rolls : List Bool) (fuel : Nat) : Option (SL × List Bool) :=
  match getHead s 3 with
  | none => none
  | some pt3 =>
    match walk cmp s h pt3 pt3 fuel with
    | none => none
    | some (.insertHere pr) =>
      match psub pr 3 with
      | none => none
      | some start =>
        insEnd cmp s np h start
          (fun r => (padd r 1, padd r 2, padd r 3)) rolls fuel
    | some (.fellThrough q3) =>
      match psub q3 1 with
      | none => none
      | some pt2 =>
        match walk cmp s h pt2 pt2 fuel with
        | none => none
        | some (.insertHere pr) =>
          match psub pr 2 with
          | none => none
          | some start =>
            insEnd cmp s np h start
              (fun r => (padd r 1, padd r 2, q3)) rolls fuel
        | some (.fellThrough q2) =>
          match psub q2 1 with
          | none => none
          | some pt1 =>
            match walk cmp s h pt1 pt1 fuel with
            | none => none
            | some (.insertHere pr) =>
              match psub pr 1 with
              | none => none
              | some start =>
                insEnd cmp s np h start
                  (fun r => (padd r 1, q2, q3)) rolls fuel
            | some (.fellThrough q1) =>
              match psub q1 1 with
              | none => none
              | some pt0 =>
                match walk cmp s h pt0 pt0 fuel with
                | none => none
                | some (.insertHere pr) =>
                  insEnd cmp s np h pr
                    (fun _ => (q1, q2, q3)) rolls fuel
                | some (.fellThrough q0) =>
                  match writeNext s q0 (some np) with
                  | none => none
                  | some s1 =>
                    match writeNext s1 np none with
                    | none => none
                    | some s2 =>
                      sl_promote s2 rolls np.blk q1 q2 q3 1 (NUM_LISTS + 1)

/-- `skip_list::sl_insert` (skip.cpp lines 60-119).  Allocates the node
block and copies the caller's `data` into slot 0 (the `memcpy` reads
`NUM_LISTS` records from the single-record `data`, so slots 1-3 stay
indeterminate; `data == NULL` dereferences NULL).  Then: empty-list case,
new-minimum front case (`0 >= cmp`), or the traversal branch.  Returns
`false` only when a `malloc` fails. -/
def sl_insert (cmp : Int → Int → Int) (rt : RT) (data : Option Node)
    (fuel : Nat) : Option (Bool × RT) :=
  match popB true rt.allocs with
  | (ok1, al1) =>
    if ok1 = false then some (false, { rt with allocs := al1 })
    else
      let nblk := rt.sl.blocks.length
      let sA : SL := { rt.sl with blocks := rt.sl.blocks ++ [undefBlock] }
      match data with
      | none => none
      | some d =>
        match writeCell sA ⟨nblk, 0⟩ d with
        | none => none
        | some s0 =>
          match getHead s0 0 with
          | none =>
            match popB true al1 with
            | (ok2, al2) =>
              if ok2 = false then some (false, ⟨s0, al2, rt.rolls⟩)
              else
                let pblk := s0.blocks.length
                let s1 : SL := { s0 with blocks := s0.blocks ++ [undefBlock] }
                let cell : Node := { d with next := none }
                match writeCell s1 ⟨pblk, 0⟩ cell with
                | none => none
                | some s2 =>
                  match writeCell s2 ⟨pblk, 1⟩ cell with
                  | none => none
                  | some s3 =>
                    match writeCell s3 ⟨pblk, 2⟩ cell with
                    | none => none
                    | some s4 =>
                      match writeCell s4 ⟨pblk, 3⟩ cell with
                      | none => none
                      | some s5 =>
                        some (true,
                          ⟨{ s5 with heads := [some ⟨pblk, 0⟩,
                              some ⟨pblk, 1⟩, some ⟨pblk, 2⟩,
                              some ⟨pblk, 3⟩] }, al2, rt.rolls⟩)
          | some oldh =>
            match readCell s0 oldh with
            | none => none
            | some ohnd =>
              if cmp d.hash ohnd.hash ≤ 0 then
                match popB true al1 with
                | (ok2, al2) =>
                  if ok2 = false then some (false, ⟨s0, al2, rt.rolls⟩)
                  else
                    let pblk := s0.blocks.length
                    let s1 : SL :=
                      { s0 with blocks := s0.blocks ++ [undefBlock] }
                    match readCell s1 ⟨oldh.blk, oldh.slot⟩ with
                    | none => none
                    | some oh0 =>
                      match writeCell s1 ⟨pblk, 0⟩
                          { d with next := oh0.next } with
                      | none => none
                      | some s2 =>
                        match readCell s2 ⟨oldh.blk, oldh.slot + 1⟩ with
                        | none => none
                        | some oh1 =>
                          match writeCell s2 ⟨pblk, 1⟩
                              { d with next := oh1.next } with
                          | none => none
                          | some s3 =>
                            match readCell s3 ⟨oldh.blk, oldh.slot + 2⟩ with
                            | none => none
                            | some oh2 =>
                              match writeCell s3 ⟨pblk, 2⟩
                                  { d with next := oh2.next } with
                              | none => none
                              | some s4 =>
                                match readCell s4
                                    ⟨oldh.blk, oldh.slot + 3⟩ with
                                | none => none
                                | some oh3 =>
                                  match writeCell s4 ⟨pblk, 3⟩
                                      { d with next := oh3.next } with
                                  | none => none
                                  | some s5 =>
                                    let s6 : SL := { s5 with heads :=
                                      [some ⟨pblk, 0⟩, some ⟨pblk, 1⟩,
                                       some ⟨pblk, 2⟩, some ⟨pblk, 3⟩] }
                                    match writeNext s6 ⟨pblk, 0⟩
                                        (some oldh) with
                                    | none => none
                                    | some s7 =>
                                      some (true, ⟨s7, al2, rt.rolls⟩)
              else
                match slInsertGo cmp s0 ⟨nblk, 0⟩ d.hash rt.rolls fuel with
                | none => none
                | some (s', rolls') => some (true, ⟨s', al1, rolls'⟩)

/-- `skip_list::sl_delete` (skip.cpp lines 121-123): a stub.  It performs
no structural change and returns `node == NULL`. -/
def sl_delete (s : SL) (node : Option Node) : Bool × SL :=
  (node.isNone, s)

/-- One step of `sl_search`'s inner while loop (skip.cpp lines 143-153):
advance while the comparison yields exactly `1`, return the next node on a
tie, otherwise break out (drop a lane) at the current node. -/
inductive SStep where
  | found (p : Ptr)
  | drop (pt : Ptr)
deriving DecidableEq, Repr

/-- The inner while loop of `sl_search` at one lane. -/
def searchWalk (cmp : Int → Int → Int) (s : SL) (h : Int) :
    Ptr → Nat → Option SStep
  | _, 0 => none
  | pt, fuel + 1 =>
    match readCell s pt with
    | none => none
    | some nd =>
      match nd.next with
      | none => some (.drop pt)
      | some nxt =>
        match readCell s nxt with
        | none => none
        | some nnd =>
          let c := cmp h nnd.hash
          if c = 1 then searchWalk cmp s h nxt fuel
          else if c = 0 then some (.found nxt)
          else some (.drop pt)

/-- The lane loop of `sl_search` (skip.cpp lines 134-156), indexed by the
current lane `i`: compare against the lane's entry node (tie returns it, a
negative comparison returns NULL), run the inner walk, and on a drop move
to `pt - 1` for the next lane; after lane 0, NULL. -/
def searchFrom (cmp : Int → Int → Int) (s : SL) (h : Int) (fuel : Nat) :
    Nat → Ptr → Option (Option Ptr)
  | i, pt =>
    match readCell s pt with
    | none => none
    | some nd =>
      let c := cmp h nd.hash
      if c = 0 then some (some pt)
      else if c < 0 then some none
      else
        match searchWalk cmp s h pt fuel with
        | none => none
        | some (.found p) => some (some p)
        | some (.drop q) =>
          match i with
          | 0 => some none
          | j + 1 =>
            match psub q 1 with
            | none => none
            | some pt' => searchFrom cmp s h fuel j pt'

/-- `skip_list::sl_search` (skip.cpp lines 129-157): start at `heads[3]`
(NULL head means not-found), then run the lane loop.  `some (some p)` is a
returned match, `some none` is a returned NULL, `none` is UB or fuel
exhaustion. -/
def sl_search (cmp : Int → Int → Int) (s : SL) (h : Int) (fuel : Nat) :
    Option (Option Ptr) :=
  match getHead s 3 with
  | none => some none
  | some pt3 => searchFrom cmp s h fuel 3 pt3

/-- Collect the keys along a `next` chain (read-only projection). -/
def chainHashes (s : SL) : Option Ptr → Nat → Option (List Int)
  | _, 0 => none
  | none, _ + 1 => some []
  | some q, fuel + 1 =>
    match readCell s q with
    | none => none
    | some nd => (chainHashes s nd.next fuel).map (nd.hash :: ·)

/-- Collect the pointers along a `next` chain (read-only projection). -/
def chainPtrs (s : SL) : Option Ptr → Nat → Option (List Ptr)
  | _, 0 => none
  | none, _ + 1 => some []
  | some q, fuel + 1 =>
    match readCell s q with
    | none => none
    | some nd => (chainPtrs s nd.next fuel).map (q :: ·)

/-- The keys of lane `i`, head to tail. -/
def laneHashes (s : SL) (i : Nat) (fuel : Nat) : Option (List Int) :=
  chainHashes s (getHead s i) fuel

/-- The node pointers of lane `i`, head to tail. -/
def lanePtrs (s : SL) (i : Nat) (fuel : Nat) : Option (List Ptr) :=
  chainPtrs s (getHead s i) fuel

/-- The canonical three-way comparator on integer keys, returning exactly
-1, 0, or 1 (the values the skip list's `1 ==` tests expect). -/
def cmpInt (a b : Int) : Int :=
  if a < b then -1 else if a = b then 0 else 1

/-- A comparator that also satisfies the documented sign contract of
`sl_compare` ("0 for equality, > 0 for v1 > v2, < 0 for v1 < v2") but
returns ±2 instead of ±1. -/
def cmpTwo (a b : Int) : Int :=
  if a < b then -2 else if a = b then 0 else 2

/-- A scripted insertion: the element handed to `sl_insert` (as produced
by `pack`, whose `next` is NULL) plus this call's oracle lists and fuel. -/
structure Step where
  data : Node
  allocs : List Bool
  rolls : List Bool
  fuel : Nat

/-- Run a list of `sl_insert` calls from a state, failing on UB or fuel
exhaustion; the boolean success flags are kept only implicitly (a `false`
insert leaves the structure untouched and the run continues, as a C caller
would). -/
def runList (cmp : Int → Int → Int) (s : SL) : List Step → Option SL
  | [] => some s
  | st :: rest =>
    match sl_insert cmp ⟨s, st.allocs, st.rolls⟩ (some st.data) st.fuel with
    | none => none
    | some (_, rt) => runList cmp rt.sl rest

/-- Element with a given key as `pack` builds it (payload handle 0, the
spec's 18-byte payload size, `next = NULL`). -/
def mkData (h : Int) : Node := ⟨0, 18, h, none⟩

/-- A scripted insert of key `h` with every allocation succeeding. -/
def insStep (h : Int) (rolls : List Bool) : Step :=
  ⟨mkData h, [], rolls, 100⟩

/-- The documented contract of `sl_compare` (skip.cpp lines 28-30):
"Should return 0 for equality, > 0 for v1 > v2, and < 0 for v1 < v2". -/
def CmpOK (cmp : Int → Int → Int) : Prop :=
  ∀ a b : Int,
    (cmp a b < 0 ↔ a < b) ∧ (cmp a b = 0 ↔ a = b) ∧ (0 < cmp a b ↔ b < a)

/-- `sl_search` returned an element whose key matches the query. -/
def searchMatches (cmp : Int → Int → Int) (s : SL) (h : Int)
    (fuel : Nat) : Bool :=
  match sl_search cmp s h fuel with
  | some (some p) =>
    match readCell s p with
    | some nd => nd.hash == h
    | none => false
  | _ => false

/-- `NChain s p L`: following `next` links from `p` visits exactly the
pointer/record pairs in `L` and ends at NULL. -/
inductive NChain (s : SL) : Option Ptr → List (Ptr × Node) → Prop
  | nil : NChain s none []
  | cons (p : Ptr) (nd : Node) (L : List (Ptr × Node)) :
      readCell s p = some nd → NChain s nd.next L →
      NChain s (some p) ((p, nd) :: L)

/-- Keys along a chain are non-decreasing. -/
def sortedHashes (L : List (Ptr × Node)) : Prop :=
  List.Chain' (· ≤ ·) (L.map fun x => x.2.hash)

/-- Every defined record's forward link stays in its own slot lane and
points below block id `n`. -/
def NextOK (s : SL) (n : Nat) : Prop :=
  ∀ p nd, readCell s p = some nd → ∀ q, nd.next = some q →
    q.slot = p.slot ∧ q.blk < n

/-- Every defined record's key equals its block's slot-0 key (all lane
copies of one element share one key, and slot 0 is defined whenever any
slot is). -/
def HashOK (s : SL) : Prop :=
  ∀ p nd, readCell s p = some nd →
    ∃ nd0, readCell s ⟨p.blk, 0⟩ = some nd0 ∧ nd.hash = nd0.hash

/-- Structural well-formedness of every defined record. -/
def WKInv (s : SL) : Prop := NextOK s s.blocks.length ∧ HashOK s

/-- The slot-0 record of `p`'s block, if defined, has key below `h`
(every record of the block then has key below `h`, by `HashOK`). -/
def BlkBelow (s : SL) (h : Int) (p : Ptr) : Prop :=
  ∀ nd0, readCell s ⟨p.blk, 0⟩ = some nd0 → nd0.hash < h

/-- The lane heads are either all NULL or the four slots of one fully
defined block. -/
def HeadsOK (s : SL) : Prop :=
  s.heads = [none, none, none, none] ∨
  ∃ b, b < s.blocks.length ∧
    s.heads = [some ⟨b, 0⟩, some ⟨b, 1⟩, some ⟨b, 2⟩, some ⟨b, 3⟩] ∧
    ∀ i, i < 4 → ∃ nd, readCell s ⟨b, i⟩ = some nd

/-- Lane 0 is a finite chain with non-decreasing keys. -/
def SortedLane0 (s : SL) : Prop :=
  ∃ L, NChain s (getHead s 0) L ∧ sortedHashes L

/-- The inductive invariant maintained by `sl_insert`. -/
def SLInv (s : SL) : Prop := WKInv s ∧ HeadsOK s ∧ SortedLane0 s

/-- State after the inserts of keys 1 and 3 (the C9 scenario's first two
calls), with `r2` the coin-flip oracle of the second call. -/
def c9mid (r2 : List Bool) : Option SL :=
  runList cmpInt SL.empty [insStep 1 [], insStep 3 r2]

/-- State after the full C9 scenario: keys 1, 3, 2 in that order. -/
def c9run (r2 r3 : List Bool) : Option SL :=
  (c9mid r2).bind fun s => runList cmpInt s [insStep 2 r3]

/-- State after inserting keys 5, 3, 5 (the duplicate-stability scenario),
with `r` the coin-flip oracle of the final insert. -/
def c8run (r : List Bool) : Option SL :=
  runList cmpInt SL.empty [insStep 5 [], insStep 3 [], insStep 5 r]

/-- Shorthand for a record as `pack` builds it for the scenario keys. -/
def nd (h : Int) (n : Option Ptr) : Node := ⟨0, 18, h, n⟩

/-- State after inserting 1 then 3 when 3 is not promoted. -/
def c9S0 : SL :=
  ⟨[[some (nd 1 none), none, none, none],
    [some (nd 1 (some ⟨2, 0⟩)), some (nd 1 none), some (nd 1 none),
     some (nd 1 none)],
    [some (nd 3 none), none, none, none]],
   [some ⟨1, 0⟩, some ⟨1, 1⟩, some ⟨1, 2⟩, some ⟨1, 3⟩]⟩

/-- State after inserting 1 then 3 when 3 is promoted into lane 1. -/
def c9S1 : SL :=
  ⟨[[some (nd 1 none), none, none, none],
    [some (nd 1 (some ⟨2, 0⟩)), some (nd 1 (some ⟨2, 1⟩)),
     some (nd 1 none), some (nd 1 none)],
    [some (nd 3 none), some (nd 3 none), none, none]],
   [some ⟨1, 0⟩, some ⟨1, 1⟩, some ⟨1, 2⟩, some ⟨1, 3⟩]⟩

/-- State after inserting 1 then 3 when 3 is promoted into lanes 1-2. -/
def c9S2 : SL :=
  ⟨[[some (nd 1 none), none, none, none],
    [some (nd 1 (some ⟨2, 0⟩)), some (nd 1 (some ⟨2, 1⟩)),
     some (nd 1 (some ⟨2, 2⟩)), some (nd 1 none)],
    [some (nd 3 none), some (nd 3 none), some (nd 3 none), none]],
   [some ⟨1, 0⟩, some ⟨1, 1⟩, some ⟨1, 2⟩, some ⟨1, 3⟩]⟩

/-- State after inserting 1 then 3 when 3 is promoted into lanes 1-3. -/
def c9S3 : SL :=
  ⟨[[some (nd 1 none), none, none, none],
    [some (nd 1 (some ⟨2, 0⟩)), some (nd 1 (some ⟨2, 1⟩)),
     some (nd 1 (some ⟨2, 2⟩)), some (nd 1 (some ⟨2, 3⟩))],
    [some (nd 3 none), some (nd 3 none), some (nd 3 none),
     some (nd 3 none)]],
   [some ⟨1, 0⟩, some ⟨1, 1⟩, some ⟨1, 2⟩, some ⟨1, 3⟩]⟩

/-- State after inserting 5 then 3 (the front path drops 5 from lanes
1-3). -/
def c8S : SL :=
  ⟨[[some (nd 5 none), none, none, none],
    [some (nd 5 none), some (nd 5 none), some (nd 5 none),
     some (nd 5 none)],
    [some (nd 3 none), none, none, none],
    [some (nd 3 (some ⟨1, 0⟩)), some (nd 3 none), some (nd 3 none),
     some (nd 3 none)]],
   [some ⟨3, 0⟩, some ⟨3, 1⟩, some ⟨3, 2⟩, some ⟨3, 3⟩]⟩

/-- Decidable check of the C9 scenario outcome on a final state: lane 0
reads [1, 2, 3], search for 2 returns a matching element, search for 4
returns NULL. -/
def c9check (s : SL) : Bool :=
  (laneHashes s 0 20 == some [1, 2, 3]) && searchMatches cmpInt s 2 20 &&
    (sl_search cmpInt s 4 20 == some none)

/-- Decidable check of the duplicate-stability scenario outcome: lane 0
reads [3, 5, 5] and its nodes are, in order, the block of the second
insert (key 3), the block of the first insert (the old 5), and the block
of the third insert (the new 5). -/
def c8check (s : SL) : Bool :=
  (laneHashes s 0 20 == some [3, 5, 5]) &&
    (lanePtrs s 0 20 == some [Ptr.mk 3 0, Ptr.mk 1 0, Ptr.mk 4 0])

/-- State after inserting keys 3 then 1 with every allocation
succeeding and no promotions. -/
def c3wS : SL :=
  ⟨[[some (nd 3 none), none, none, none],
    [some (nd 3 none), some (nd 3 none), some (nd 3 none),
     some (nd 3 none)],
    [some (nd 1 none), none, none, none],
    [some (nd 1 (some ⟨1, 0⟩)), some (nd 1 none), some (nd 1 none),
     some (nd 1 none)]],
   [some ⟨3, 0⟩, some ⟨3, 1⟩, some ⟨3, 2⟩, some ⟨3, 3⟩]⟩

/-- State after inserting key 2 into the empty list. -/
def c10wS : SL :=
  ⟨[[some (nd 2 none), none, none, none],
    [some (nd 2 none), some (nd 2 none), some (nd 2 none),
     some (nd 2 none)]],
   [some ⟨1, 0⟩, some ⟨1, 1⟩, some ⟨1, 2⟩, some ⟨1, 3⟩]⟩

/-- State after inserting key 5 into the empty list (both allocations
succeed, no promotion rolls): the concrete front-insert fixture. -/
def c5wS : SL :=
  ⟨[[some (nd 5 none), none, none, none],
    [some (nd 5 none), some (nd 5 none), some (nd 5 none),
     some (nd 5 none)]],
   [some ⟨1, 0⟩, some ⟨1, 1⟩, some ⟨1, 2⟩, some ⟨1, 3⟩]⟩

/-- Claim C1 (code bug).  `cmpTwo` satisfies the documented three-way sign
contract of `sl_compare`, yet after successfully inserting keys 1, 2, 3
(lane 0 indeed reads [1, 2, 3]) the search for the inserted key 3 returns
NULL: the descent tests `1 == sl_compare(...)` instead of `0 < ...`,
contradicting the comparator documentation in skip.cpp lines 28-30. -/
theorem c1_conforming_comparator_search_misses :
    CmpOK cmpTwo ∧
    (runList cmpTwo SL.empty
        [insStep 1 [], insStep 2 [], insStep 3 []]).bind
      (fun s => laneHashes s 0 100) = some [1, 2, 3] ∧
    (runList cmpTwo SL.empty
        [insStep 1 [], insStep 2 [], insStep 3 []]).bind
      (fun s => sl_search cmpTwo s 3 100) = some none := by
  refine ⟨?_, rfl, rfl⟩
  intro a b
  unfold cmpTwo
  rcases lt_trichotomy a b with h | h | h
  · rw [if_pos h]; omega
  · rw [if_neg (by omega), if_pos h]; omega
  · rw [if_neg (by omega), if_neg (by omega)]; omega

/-- Claim C2 (code bug).  `sl_delete` is a stub: it returns `false` for
every non-NULL argument and never mutates the list, so after inserting key
5 and deleting it, lane 0 still holds [5] instead of the inserted-minus-
deleted multiset []. -/
theorem c2_delete_is_a_stub :
    (∀ (s : SL) (d : Node), sl_delete s (some d) = (false, s)) ∧
    (runList cmpInt SL.empty [insStep 5 []]).bind
      (fun s => laneHashes (sl_delete s (some (mkData 5))).2 0 100)
      = some [5] ∧
    (runList cmpInt SL.empty [insStep 5 []]).map
      (fun s => (sl_delete s (some (mkData 5))).1) = some false :=
  ⟨fun _ _ => rfl, rfl, rfl⟩

/-- Claim C4 (code bug).  After inserting keys 5, 3, 7, 1, 4 (promotion
rolls: key 7 promoted once, key 4 rolled true twice), key 4 is present in
lane 2 but absent from lane 1: the promotion spliced `node[1]` after the
lane-1 slot of a block that a front insert had already dropped from lane
1, then spliced `node[2]` after a genuine lane-2 node.  This contradicts
the source's own header comment (skip.cpp lines 2-4: each sublist shares
its nodes' payloads/hashes with the list below it). -/
theorem c4_promoted_key_skips_lane1 :
    ∃ L2 L1 : List Int,
      (runList cmpInt SL.empty
          [insStep 5 [], insStep 3 [], insStep 7 [true, false],
           insStep 1 [], insStep 4 [true, true, false]]).bind
        (fun s => laneHashes s 2 100) = some L2 ∧
      (runList cmpInt SL.empty
          [insStep 5 [], insStep 3 [], insStep 7 [true, false],
           insStep 1 [], insStep 4 [true, true, false]]).bind
        (fun s => laneHashes s 1 100) = some L1 ∧
      4 ∈ L2 ∧ 4 ∉ L1 :=
  ⟨[1, 4], [1, 7], rfl, rfl, by decide, by decide⟩

/-- Claim C5, counterexample.  Inserting 5 then 3 takes the new-minimum
front path; the claim says the prior head of every lane remains in its
lane immediately after the new node, but lane 1 afterwards reads [3], not
[3, 5]: lanes above 0 drop their prior head. -/
theorem c5_cex_upper_head_dropped :
    (runList cmpInt SL.empty [insStep 5 [], insStep 3 []]).bind
      (fun s => laneHashes s 1 100) = some [3] ∧
    (runList cmpInt SL.empty [insStep 5 []]).bind
      (fun s => laneHashes s 1 100) = some [5] ∧
    ¬ (runList cmpInt SL.empty [insStep 5 [], insStep 3 []]).bind
        (fun s => laneHashes s 1 100) = some [3, 5] :=
  ⟨rfl, rfl, by decide⟩

/-- Claim C7, counterexample.  The claim says `sl_delete` returns `false`
on a NULL node; the source returns `node == NULL`, which is `true` there. -/
theorem c7_cex_delete_null_returns_true :
    (sl_delete SL.empty none).1 = true ∧
    ¬ (sl_delete SL.empty none).1 = false :=
  ⟨rfl, by decide⟩

/-- Claim C7 as amended.  Null handling as the source actually behaves:
`sl_delete(NULL)` returns `true` (argument validation only, no mutation);
`sl_insert(NULL)` does not check its argument and dereferences NULL (the
`memcpy` from `data`), i.e. undefined behaviour rather than a local
failure return, whenever the first `malloc` succeeds; `sl_search` on an
empty list returns NULL for every key. -/
theorem c7_amended_null_handling :
    (∀ s : SL, sl_delete s none = (true, s)) ∧
    (∀ (cmp : Int → Int → Int) (s : SL) (allocs rolls : List Bool)
        (fuel : Nat),
      sl_insert cmp ⟨s, true :: allocs, rolls⟩ none fuel = none) ∧
    (∀ (cmp : Int → Int → Int) (h : Int) (fuel : Nat),
      sl_search cmp SL.empty h fuel = some none) :=
  ⟨fun _ => rfl, fun _ _ _ _ _ => rfl, fun _ _ _ => rfl⟩

/-- Claim C8, counterexample.  Inserting key 5 twice: the second 5
compares equal to the lane-0 head, takes the front path, and is placed
*before* the existing 5.  Block 1 holds the first 5 (the first insert
allocates blocks 0 and 1); block 3 is allocated by the second insert, and
lane 0 reads [block 3, block 1] — the new duplicate is not placed after
the existing equal-key node. -/
theorem c8_cex_duplicate_before_existing :
    (runList cmpInt SL.empty [insStep 5 [], insStep 5 []]).bind
      (fun s => lanePtrs s 0 100) = some [Ptr.mk 3 0, Ptr.mk 1 0] ∧
    (runList cmpInt SL.empty [insStep 5 [], insStep 5 []]).bind
      (fun s => laneHashes s 0 100) = some [5, 5] ∧
    (runList cmpInt SL.empty [insStep 5 []]).map
      (fun s => s.blocks.length) = some 2 ∧
    ¬ (runList cmpInt SL.empty [insStep 5 [], insStep 5 []]).bind
        (fun s => lanePtrs s 0 100) = some [Ptr.mk 1 0, Ptr.mk 3 0] :=
  ⟨rfl, rfl, rfl, by decide⟩

/-- Running a script splits at any point. -/
theorem runList_append (cmp : Int → Int → Int) (l1 l2 : List Step) :
    ∀ s, runList cmp s (l1 ++ l2) =
      (runList cmp s l1).bind fun s' => runList cmp s' l2 := by
  induction l1 with
  | nil => intro s; rfl
  | cons st rest ih =>
    intro s
    have h1 : runList cmp s ((st :: rest) ++ l2) =
        match sl_insert cmp ⟨s, st.allocs, st.rolls⟩ (some st.data)
          st.fuel with
        | none => none
        | some (_, rt) => runList cmp rt.sl (rest ++ l2) := rfl
    have h2 : runList cmp s (st :: rest) =
        match sl_insert cmp ⟨s, st.allocs, st.rolls⟩ (some st.data)
          st.fuel with
        | none => none
        | some (_, rt) => runList cmp rt.sl rest := rfl
    rw [h1, h2]
    cases sl_insert cmp ⟨s, st.allocs, st.rolls⟩ (some st.data) st.fuel with
    | none => rfl
    | some r => exact ih r.2.sl

/-- The state after inserting 1 then 3 is one of four states, one per
promotion level of the key 3 (the coin flips decide nothing else). -/
theorem c9mid_classified (r2 : List Bool) :
    c9mid r2 = some c9S0 ∨ c9mid r2 = some c9S1 ∨
    c9mid r2 = some c9S2 ∨ c9mid r2 = some c9S3 := by
  rcases r2 with _ | ⟨_ | _, r2⟩
  · exact Or.inl rfl
  · exact Or.inl rfl
  rcases r2 with _ | ⟨_ | _, r2⟩
  · exact Or.inr (Or.inl rfl)
  · exact Or.inr (Or.inl rfl)
  rcases r2 with _ | ⟨_ | _, r2⟩
  · exact Or.inr (Or.inr (Or.inl rfl))
  · exact Or.inr (Or.inr (Or.inl rfl))
  rcases r2 with _ | ⟨_ | _, r2⟩
  · exact Or.inr (Or.inr (Or.inr rfl))
  · exact Or.inr (Or.inr (Or.inr rfl))
  · exact Or.inr (Or.inr (Or.inr rfl))

/-- Inserting 2 into the first mid state gives the scenario outcome for
every coin-flip oracle. -/
theorem c9end0 (r3 : List Bool) :
    (runList cmpInt c9S0 [insStep 2 r3]).map c9check = some true := by
  rcases r3 with _ | ⟨_ | _, r3⟩
  · rfl
  · rfl
  rcases r3 with _ | ⟨_ | _, r3⟩
  · rfl
  · rfl
  rcases r3 with _ | ⟨_ | _, r3⟩
  · rfl
  · rfl
  rcases r3 with _ | ⟨_ | _, r3⟩
  · rfl
  · rfl
  · rfl

/-- Inserting 2 into the second mid state gives the scenario outcome for
every coin-flip oracle. -/
theorem c9end1 (r3 : List Bool) :
    (runList cmpInt c9S1 [insStep 2 r3]).map c9check = some true := by
  rcases r3 with _ | ⟨_ | _, r3⟩
  · rfl
  · rfl
  rcases r3 with _ | ⟨_ | _, r3⟩
  · rfl
  · rfl
  rcases r3 with _ | ⟨_ | _, r3⟩
  · rfl
  · rfl
  rcases r3 with _ | ⟨_ | _, r3⟩
  · rfl
  · rfl
  · rfl

/-- Inserting 2 into the third mid state gives the scenario outcome for
every coin-flip oracle. -/
theorem c9end2 (r3 : List Bool) :
    (runList cmpInt c9S2 [insStep 2 r3]).map c9check = some true := by
  rcases r3 with _ | ⟨_ | _, r3⟩
  · rfl
  · rfl
  rcases r3 with _ | ⟨_ | _, r3⟩
  · rfl
  · rfl
  rcases r3 with _ | ⟨_ | _, r3⟩
  · rfl
  · rfl
  rcases r3 with _ | ⟨_ | _, r3⟩
  · rfl
  · rfl
  · rfl

/-- Inserting 2 into the fourth mid state gives the scenario outcome for
every coin-flip oracle. -/
theorem c9end3 (r3 : List Bool) :
    (runList cmpInt c9S3 [insStep 2 r3]).map c9check = some true := by
  rcases r3 with _ | ⟨_ | _, r3⟩
  · rfl
  · rfl
  rcases r3 with _ | ⟨_ | _, r3⟩
  · rfl
  · rfl
  rcases r3 with _ | ⟨_ | _, r3⟩
  · rfl
  · rfl
  rcases r3 with _ | ⟨_ | _, r3⟩
  · rfl
  · rfl
  · rfl

/-- Unpack `c9check`. -/
theorem c9check_spec (o : Option SL) (h : o.map c9check = some true) :
    (o.bind fun s => laneHashes s 0 20) = some [1, 2, 3] ∧
    (o.map fun s => searchMatches cmpInt s 2 20) = some true ∧
    (o.bind fun s => sl_search cmpInt s 4 20) = some none := by
  rcases o with _ | s
  · exact absurd h (by simp)
  · have hs : c9check s = true := by simpa using h
    unfold c9check at hs
    rw [Bool.and_eq_true, Bool.and_eq_true] at hs
    obtain ⟨⟨e1, e2⟩, e3⟩ := hs
    refine ⟨?_, ?_, ?_⟩
    · simpa using eq_of_beq e1
    · simpa using e2
    · simpa using eq_of_beq e3

/-- Claim C9 (confirmed).  Inserting keys 1, 3, 2 in that order into an
empty list — whatever the promotion coin flips of either traversal-case
insert — leaves lane 0 reading [1, 2, 3]; `sl_search 2` then returns an
element whose key is 2, and `sl_search 4` returns NULL. -/
theorem c9_scenario_132 (r2 r3 : List Bool) :
    (c9run r2 r3).bind (fun s => laneHashes s 0 20) = some [1, 2, 3] ∧
    (c9run r2 r3).map (fun s => searchMatches cmpInt s 2 20) = some true ∧
    (c9run r2 r3).bind (fun s => sl_search cmpInt s 4 20) = some none := by
  apply c9check_spec
  have hm := c9mid_classified r2
  have hrun : c9run r2 r3 = (c9mid r2).bind
      fun s => runList cmpInt s [insStep 2 r3] := rfl
  rcases hm with h | h | h | h <;>
    rw [hrun, h, Option.some_bind]
  · exact c9end0 r3
  · exact c9end1 r3
  · exact c9end2 r3
  · exact c9end3 r3

/-- Inserting 5 into the [5, 3] state gives the stable outcome for every
coin-flip oracle. -/
theorem c8end (r : List Bool) :
    (runList cmpInt c8S [insStep 5 r]).map c8check = some true := by
  rcases r with _ | ⟨_ | _, r⟩
  · rfl
  · rfl
  rcases r with _ | ⟨_ | _, r⟩
  · rfl
  · rfl
  rcases r with _ | ⟨_ | _, r⟩
  · rfl
  · rfl
  rcases r with _ | ⟨_ | _, r⟩
  · rfl
  · rfl
  · rfl

/-- Claim C8 as amended.  A duplicate whose key compares *equal to the
lane-0 head* is placed at the very front, before the existing equal-key
nodes (the front path takes `0 >= cmp`); a duplicate that lands beyond the
head is placed after all existing equal-key nodes.  In particular the
spec's scenario holds: inserting [5, 3, 5] yields lane 0 = [3, 5, 5] with
the two 5-nodes in insertion order (block 1 from the first insert before
block 4 from the third), for every promotion coin-flip oracle. -/
theorem c8_amended_duplicates (r : List Bool) :
    (c8run r).bind (fun s => laneHashes s 0 20) = some [3, 5, 5] ∧
    (c8run r).bind (fun s => lanePtrs s 0 20)
      = some [Ptr.mk 3 0, Ptr.mk 1 0, Ptr.mk 4 0] := by
  have hmid : runList cmpInt SL.empty [insStep 5 [], insStep 3 []]
      = some c8S := rfl
  have hrun : c8run r = (runList cmpInt SL.empty
      [insStep 5 [], insStep 3 []]).bind
        fun s' => runList cmpInt s' [insStep 5 r] :=
    runList_append cmpInt [insStep 5 [], insStep 3 []] [insStep 5 r]
      SL.empty
  rw [hmid, Option.some_bind] at hrun
  have h := c8end r
  rw [← hrun] at h
  rcases hc : c8run r with _ | s
  · rw [hc] at h; exact absurd h (by simp)
  · rw [hc] at h
    have hs : c8check s = true := by simpa using h
    unfold c8check at hs
    rw [Bool.and_eq_true] at hs
    obtain ⟨e1, e2⟩ := hs
    exact ⟨by simpa using eq_of_beq e1, by simpa using eq_of_beq e2⟩

/-- A defined read implies the block id is allocated. -/
theorem readCell_blk_lt {s : SL} {p : Ptr} {nd : Node}
    (h : readCell s p = some nd) : p.blk < s.blocks.length := by
  by_contra hc
  unfold readCell at h
  rw [List.get?_eq_none.mpr (Nat.le_of_not_lt hc)] at h
  simp at h

/-- A successful write hits an allocated block. -/
theorem writeCell_elim {s s' : SL} {p : Ptr} {nd : Node}
    (h : writeCell s p nd = some s') :
    ∃ b, s.blocks.get? p.blk = some b ∧ p.slot < b.length ∧
      s' = { s with blocks := s.blocks.set p.blk (b.set p.slot (some nd)) } := by
  unfold writeCell at h
  split at h
  · exact absurd h (by simp)
  next b hb =>
    split at h
    next hs => exact ⟨b, hb, hs, by cases h; rfl⟩
    · exact absurd h (by simp)

/-- A successful write keeps the number of blocks. -/
theorem writeCell_length {s s' : SL} {p : Ptr} {nd : Node}
    (h : writeCell s p nd = some s') : s'.blocks.length = s.blocks.length := by
  obtain ⟨b, hb, hs, rfl⟩ := writeCell_elim h
  simp

/-- A successful write keeps the lane heads. -/
theorem writeCell_heads {s s' : SL} {p : Ptr} {nd : Node}
    (h : writeCell s p nd = some s') : s'.heads = s.heads := by
  obtain ⟨b, hb, hs, rfl⟩ := writeCell_elim h
  rfl

/-- A `get?` that yields a value is in range. -/
theorem get?_lt {α : Type} {l : List α} {n : Nat} {a : α}
    (h : l.get? n = some a) : n < l.length := by
  by_contra hc
  rw [List.get?_eq_none.mpr (Nat.le_of_not_lt hc)] at h
  exact absurd h (by simp)

/-- Reading back the written slot. -/
theorem readCell_writeCell_self {s s' : SL} {p : Ptr} {nd : Node}
    (h : writeCell s p nd = some s') : readCell s' p = some nd := by
  obtain ⟨b, hb, hs, rfl⟩ := writeCell_elim h
  unfold readCell
  simp only
  rw [List.get?_set_eq_of_lt _ (get?_lt hb)]
  simp only [Option.some_bind]
  rw [List.get?_set_eq_of_lt _ hs]
  rfl

/-- Reading any other slot is unaffected by a write. -/
theorem readCell_writeCell_ne {s s' : SL} {p q : Ptr} {nd : Node}
    (h : writeCell s p nd = some s') (hne : q ≠ p) :
    readCell s' q = readCell s q := by
  obtain ⟨b, hb, hs, rfl⟩ := writeCell_elim h
  unfold readCell
  simp only
  by_cases hblk : q.blk = p.blk
  · have hslot : q.slot ≠ p.slot := by
      intro hq
      exact hne (by cases p; cases q; simp_all)
    rw [hblk, List.get?_set_eq_of_lt _ (get?_lt hb), hb]
    simp only [Option.some_bind]
    rw [List.get?_set_ne _ _ (fun hcontra => hslot hcontra.symm)]
  · rw [List.get?_set_ne _ _ (fun hcontra => hblk hcontra.symm)]

/-- Unpack a successful `writeNext`. -/
theorem writeNext_cases {s s' : SL} {p : Ptr} {q : Option Ptr}
    (h : writeNext s p q = some s') :
    ∃ nd, readCell s p = some nd ∧
      writeCell s p { nd with next := q } = some s' := by
  unfold writeNext at h
  split at h
  · exact absurd h (by simp)
  next nd hr => exact ⟨nd, hr, h⟩

/-- `writeNext` keeps the number of blocks. -/
theorem writeNext_length {s s' : SL} {p : Ptr} {q : Option Ptr}
    (h : writeNext s p q = some s') :
    s'.blocks.length = s.blocks.length := by
  obtain ⟨nd, _, hw⟩ := writeNext_cases h
  exact writeCell_length hw

/-- `writeNext` keeps the lane heads. -/
theorem writeNext_heads {s s' : SL} {p : Ptr} {q : Option Ptr}
    (h : writeNext s p q = some s') : s'.heads = s.heads := by
  obtain ⟨nd, _, hw⟩ := writeNext_cases h
  exact writeCell_heads hw

/-- Reading back the pointer whose link was set. -/
theorem readCell_writeNext_self {s s' : SL} {p : Ptr} {q : Option Ptr}
    (h : writeNext s p q = some s') :
    ∃ nd, readCell s p = some nd ∧
      readCell s' p = some { nd with next := q } := by
  obtain ⟨nd, hr, hw⟩ := writeNext_cases h
  exact ⟨nd, hr, readCell_writeCell_self hw⟩

/-- Reading any other slot is unaffected by a link write. -/
theorem readCell_writeNext_ne {s s' : SL} {p r : Ptr} {q : Option Ptr}
    (h : writeNext s p q = some s') (hne : r ≠ p) :
    readCell s' r = readCell s r := by
  obtain ⟨nd, _, hw⟩ := writeNext_cases h
  exact readCell_writeCell_ne hw hne

/-- Writes never make a defined slot indeterminate. -/
theorem defined_writeCell {s s' : SL} {p r : Ptr} {nd : Node}
    (h : writeCell s p nd = some s') (hd : ∃ x, readCell s r = some x) :
    ∃ x, readCell s' r = some x := by
  by_cases hrp : r = p
  · exact ⟨nd, hrp ▸ readCell_writeCell_self h⟩
  · obtain ⟨x, hx⟩ := hd
    exact ⟨x, (readCell_writeCell_ne h hrp).trans hx⟩

/-- Link writes never make a defined slot indeterminate. -/
theorem defined_writeNext {s s' : SL} {p r : Ptr} {q : Option Ptr}
    (h : writeNext s p q = some s') (hd : ∃ x, readCell s r = some x) :
    ∃ x, readCell s' r = some x := by
  obtain ⟨nd, _, hw⟩ := writeNext_cases h
  exact defined_writeCell hw hd

/-- Appending a block does not change existing reads. -/
theorem readCell_append_old {s : SL} {b : Block} {p : Ptr}
    (h : p.blk < s.blocks.length) :
    readCell { s with blocks := s.blocks ++ [b] } p = readCell s p := by
  unfold readCell
  simp only
  rw [List.get?_append h]

/-- The slots of a freshly appended indeterminate block read as
indeterminate. -/
theorem readCell_append_new {s : SL} {j : Nat} :
    readCell { s with blocks := s.blocks ++ [undefBlock] }
      ⟨s.blocks.length, j⟩ = none := by
  unfold readCell
  simp only
  rw [List.get?_concat_length]
  simp only [Option.some_bind]
  unfold undefBlock
  match j with
  | 0 => rfl
  | 1 => rfl
  | 2 => rfl
  | 3 => rfl
  | n + 4 => rfl

/-- Invert a chain starting at a pointer. -/
theorem NChain_cons_elim {s : SL} {p : Ptr} {L : List (Ptr × Node)}
    (h : NChain s (some p) L) :
    ∃ nd L', L = (p, nd) :: L' ∧ readCell s p = some nd ∧
      NChain s nd.next L' := by
  cases h with
  | cons p nd L' hr hc => exact ⟨nd, L', rfl, hr, hc⟩

/-- A chain from NULL is empty. -/
theorem NChain_none_elim {s : SL} {L : List (Ptr × Node)}
    (h : NChain s none L) : L = [] := by
  cases h; rfl

/-- Chains are functional in the start pointer. -/
theorem NChain_unique {s : SL} :
    ∀ {L L' : List (Ptr × Node)} {o : Option Ptr},
      NChain s o L → NChain s o L' → L = L' := by
  intro L
  induction L with
  | nil =>
    intro L' o h h'
    cases h
    cases h'
    rfl
  | cons x L ih =>
    intro L' o h h'
    cases h with
    | cons p nd L hr hc =>
      cases h' with
      | cons p nd' L' hr' hc' =>
        rw [hr] at hr'
        cases hr'
        rw [ih hc hc']

/-- Reading the same values along a chain preserves it. -/
theorem NChain_frame {s s' : SL} :
    ∀ {o : Option Ptr} {L : List (Ptr × Node)}, NChain s o L →
      (∀ x, x ∈ L → readCell s' x.1 = readCell s x.1) →
      NChain s' o L := by
  intro o L h
  induction h with
  | nil => intro _; exact NChain.nil
  | cons p nd L hr hc ih =>
    intro hcells
    refine NChain.cons p nd L ?_ (ih fun x hx => hcells x (by simp [hx]))
    rw [hcells (p, nd) (by simp)]
    exact hr

/-- Every decomposition point of a chain starts the chain of its own
pointer. -/
theorem NChain_suffix {s : SL} :
    ∀ {A : List (Ptr × Node)} {o : Option Ptr} {x : Ptr × Node}
      {B L : List (Ptr × Node)}, NChain s o L → L = A ++ x :: B →
      NChain s (some x.1) (x :: B) := by
  intro A
  induction A with
  | nil =>
    intro o x B L h hL
    subst hL
    simp only [List.nil_append] at h
    cases h with
    | cons p nd L hr hc => exact NChain.cons p nd B hr hc
  | cons a A ih =>
    intro o x B L h hL
    subst hL
    cases h with
    | cons p nd L hr hc => exact ih hc rfl

/-- `NChain_suffix` with the prefix list given explicitly. -/
theorem NChain_suffix_at {s : SL} (A : List (Ptr × Node))
    {o : Option Ptr} {x : Ptr × Node} {B L : List (Ptr × Node)}
    (h : NChain s o L) (hL : L = A ++ x :: B) :
    NChain s (some x.1) (x :: B) :=
  @NChain_suffix s A o x B L h hL

/-- The head pointer of a chain never reappears in its tail. -/
theorem NChain_head_not_in_tail {s : SL} {p : Ptr} {nd : Node}
    {L : List (Ptr × Node)} (h : NChain s (some p) ((p, nd) :: L)) :
    ∀ x, x ∈ L → x.1 ≠ p := by
  intro x hx hxp
  obtain ⟨A2, B2, hdec⟩ := List.append_of_mem hx
  subst hdec
  have h2 : NChain s (some x.1) (x :: B2) :=
    NChain_suffix_at ((p, nd) :: A2) h (by simp)
  rw [hxp] at h2
  have := NChain_unique h h2
  have hlen := congrArg List.length this
  simp at hlen
  omega

/-- Chain pointers are pairwise distinct. -/
theorem NChain_pairwise {s : SL} :
    ∀ {o : Option Ptr} {L : List (Ptr × Node)}, NChain s o L →
      L.Pairwise (fun x y => x.1 ≠ y.1) := by
  intro o L h
  induction h with
  | nil => exact List.Pairwise.nil
  | cons p nd L hr hc ih =>
    refine List.Pairwise.cons ?_ ih
    intro y hy
    exact fun hne => (NChain_head_not_in_tail
      (NChain.cons p nd L hr hc) y hy) hne.symm

/-- Chain pointers keep the slot of the entry pointer. -/
theorem NChain_slots {s : SL} {n : Nat} (hn : NextOK s n) {σ : Nat} :
    ∀ {o : Option Ptr} {L : List (Ptr × Node)}, NChain s o L →
      (∀ q, o = some q → q.slot = σ) →
      ∀ x, x ∈ L → x.1.slot = σ := by
  intro o L h
  induction h with
  | nil => intro _ x hx; cases hx
  | cons p nd L hr hc ih =>
    intro ho x hx
    have hp : p.slot = σ := ho p rfl
    rcases List.mem_cons.mp hx with hx1 | hx2
    · rw [hx1]; exact hp
    · refine ih ?_ x hx2
      intro q hq
      have := (hn p nd hr q hq).1
      rw [this, hp]

/-- Chain pointers stay below the block bound of `NextOK`. -/
theorem NChain_blks {s : SL} {n : Nat} (hn : NextOK s n) :
    ∀ {o : Option Ptr} {L : List (Ptr × Node)}, NChain s o L →
      (∀ q, o = some q → q.blk < n) →
      ∀ x, x ∈ L → x.1.blk < n := by
  intro o L h
  induction h with
  | nil => intro _ x hx; cases hx
  | cons p nd L hr hc ih =>
    intro ho x hx
    rcases List.mem_cons.mp hx with hx1 | hx2
    · rw [hx1]; exact ho p rfl
    · refine ih ?_ x hx2
      intro q hq
      exact (hn p nd hr q hq).2

/-- Inserting one element into a `Chain'` next to a fixed left
neighbour. -/
theorem chain'_insert {α : Type} {R : α → α → Prop} (A : List α)
    (x y : α) (B : List α) (h : List.Chain' R (A ++ x :: B))
    (hxy : R x y) (hyB : ∀ b, B.head? = some b → R y b) :
    List.Chain' R (A ++ x :: y :: B) := by
  rw [List.chain'_append] at h ⊢
  obtain ⟨hA, hxB, hcross⟩ := h
  refine ⟨hA, ?_, ?_⟩
  · rw [List.chain'_cons]
    refine ⟨hxy, ?_⟩
    rw [List.chain'_cons']
    exact ⟨fun b hb => hyB b hb, (List.chain'_cons'.mp hxB).2⟩
  · intro a ha z hz
    exact hcross a ha z (by simpa using hz)

/-- A chain is untouched by a link write outside it. -/
theorem NChain_frame_writeNext {s s' : SL} {q : Ptr} {v : Option Ptr}
    {o : Option Ptr} {L : List (Ptr × Node)} (h : NChain s o L)
    (hw : writeNext s q v = some s') (hq : ∀ x, x ∈ L → x.1 ≠ q) :
    NChain s' o L :=
  NChain_frame h fun x hx => readCell_writeNext_ne hw (hq x hx)

/-- Invert a chain whose head pointer is known. -/
theorem NChain_cons_inv {s : SL} {p : Ptr} {nd : Node}
    {L : List (Ptr × Node)} (h : NChain s (some p) ((p, nd) :: L)) :
    readCell s p = some nd ∧ NChain s nd.next L := by
  cases h with
  | cons p' nd' L' hr hc => exact ⟨hr, hc⟩

/-- Replace the tail of a chain from a fixed pointer on, when the prefix
cells read unchanged. -/
theorem NChain_graft {s s2 : SL} :
    ∀ (A : List (Ptr × Node)) {o : Option Ptr} {q : Ptr} {y y2 : Node}
      {rest rest2 : List (Ptr × Node)},
      NChain s o (A ++ (q, y) :: rest) →
      (∀ x, x ∈ A → readCell s2 x.1 = readCell s x.1) →
      NChain s2 (some q) ((q, y2) :: rest2) →
      NChain s2 o (A ++ (q, y2) :: rest2) := by
  intro A
  induction A with
  | nil =>
    intro o q y y2 r r2 h hf ht
    simp only [List.nil_append] at h ⊢
    cases h with
    | cons p nd L hr hc => exact ht
  | cons a A ih =>
    intro o q y y2 r r2 h hf ht
    cases h with
    | cons p nd L hr hc =>
      refine NChain.cons p nd _ ?_
        (ih hc (fun x hx => hf x (List.mem_cons_of_mem _ hx)) ht)
      rw [hf (p, nd) (List.mem_cons_self _ _)]
      exact hr

/-- Splicing the fresh node after a chain member `fp`, writing
`node->next = fp->next` then `fp->next = node` (the write order of both
inserting branches of `ll_insert`). -/
theorem chain_splice_mid {s s1 s2 : SL} {hd : Option Ptr}
    {A B L : List (Ptr × Node)} {fp np : Ptr} {fpnd npnd : Node}
    (hL : NChain s hd L) (hdec : L = A ++ (fp, fpnd) :: B)
    (hnp : readCell s np = some npnd)
    (hfresh : ∀ x, x ∈ L → x.1 ≠ np)
    (h1 : writeNext s np fpnd.next = some s1)
    (h2 : writeNext s1 fp (some np) = some s2) :
    NChain s2 hd
      (A ++ (fp, { fpnd with next := some np }) ::
        (np, { npnd with next := fpnd.next }) :: B) := by
  have hpw : (A ++ (fp, fpnd) :: B).Pairwise (fun x y => x.1 ≠ y.1) := by
    rw [← hdec]; exact NChain_pairwise hL
  have hfpmem : (fp, fpnd) ∈ L := by
    rw [hdec]; exact List.mem_append_right _ (List.mem_cons_self _ _)
  have hfpnp : fp ≠ np := hfresh _ hfpmem
  have hsfx := NChain_suffix_at A hL hdec
  obtain ⟨hfpr, hBchain⟩ := NChain_cons_inv hsfx
  obtain ⟨nd1, hr1, hs1np⟩ := readCell_writeNext_self h1
  rw [hnp] at hr1
  cases hr1
  obtain ⟨nd2, hr2, hs2fp⟩ := readCell_writeNext_self h2
  rw [readCell_writeNext_ne h1 hfpnp, hfpr] at hr2
  cases hr2
  have hs2np : readCell s2 np = some { npnd with next := fpnd.next } := by
    rw [readCell_writeNext_ne h2 (Ne.symm hfpnp)]
    exact hs1np
  have hBframe : ∀ x, x ∈ B → readCell s2 x.1 = readCell s x.1 := by
    intro x hx
    have hxnp : x.1 ≠ np := hfresh x (by
      rw [hdec]
      exact List.mem_append_right _ (List.mem_cons_of_mem _ hx))
    have hxfp : x.1 ≠ fp := by
      have hp2 := (List.pairwise_append.mp hpw).2.1
      have hrel := (List.pairwise_cons.mp hp2).1 x hx
      exact fun hc => hrel hc.symm
    rw [readCell_writeNext_ne h2 hxfp, readCell_writeNext_ne h1 hxnp]
  have htail : NChain s2 (some fp)
      ((fp, { fpnd with next := some np }) ::
        (np, { npnd with next := fpnd.next }) :: B) := by
    refine NChain.cons _ _ _ hs2fp ?_
    refine NChain.cons _ _ _ hs2np ?_
    exact NChain_frame hBchain hBframe
  have hAframe : ∀ x, x ∈ A → readCell s2 x.1 = readCell s x.1 := by
    intro x hx
    have hxnp : x.1 ≠ np := hfresh x (by
      rw [hdec]; exact List.mem_append_left _ hx)
    have hxfp : x.1 ≠ fp := by
      have hcross := (List.pairwise_append.mp hpw).2.2 x hx (fp, fpnd)
        (List.mem_cons_self _ _)
      exact hcross
    rw [readCell_writeNext_ne h2 hxfp, readCell_writeNext_ne h1 hxnp]
  rw [hdec] at hL
  exact NChain_graft A hL hAframe htail

/-- Appending the fresh node after the chain's last member, writing
`fp->next = node` then `node->next = NULL` (the tail-append of
`ll_insert`'s scan and of the descent's bottom exit). -/
theorem chain_splice_end {s s1 s2 : SL} {hd : Option Ptr}
    {A L : List (Ptr × Node)} {fp np : Ptr} {fpnd npnd : Node}
    (hL : NChain s hd L) (hdec : L = A ++ [(fp, fpnd)])
    (hnp : readCell s np = some npnd)
    (hfresh : ∀ x, x ∈ L → x.1 ≠ np)
    (h1 : writeNext s fp (some np) = some s1)
    (h2 : writeNext s1 np none = some s2) :
    NChain s2 hd
      (A ++ (fp, { fpnd with next := some np }) ::
        [(np, { npnd with next := none })]) := by
  have hpw : (A ++ [(fp, fpnd)]).Pairwise (fun x y => x.1 ≠ y.1) := by
    rw [← hdec]; exact NChain_pairwise hL
  have hfpmem : (fp, fpnd) ∈ L := by
    rw [hdec]; exact List.mem_append_right _ (List.mem_cons_self _ _)
  have hfpnp : fp ≠ np := hfresh _ hfpmem
  have hsfx := NChain_suffix_at A hL hdec
  obtain ⟨hfpr, _⟩ := NChain_cons_inv hsfx
  obtain ⟨nd1, hr1, hs1fp⟩ := readCell_writeNext_self h1
  rw [hfpr] at hr1
  cases hr1
  obtain ⟨nd2, hr2, hs2np⟩ := readCell_writeNext_self h2
  rw [readCell_writeNext_ne h1 (Ne.symm hfpnp), hnp] at hr2
  cases hr2
  have hs2fp : readCell s2 fp = some { fpnd with next := some np } := by
    rw [readCell_writeNext_ne h2 hfpnp]
    exact hs1fp
  have htail : NChain s2 (some fp)
      ((fp, { fpnd with next := some np }) ::
        [(np, { npnd with next := none })]) := by
    refine NChain.cons _ _ _ hs2fp ?_
    refine NChain.cons _ _ _ hs2np ?_
    exact NChain.nil
  have hAframe : ∀ x, x ∈ A → readCell s2 x.1 = readCell s x.1 := by
    intro x hx
    have hxnp : x.1 ≠ np := hfresh x (by
      rw [hdec]; exact List.mem_append_left _ hx)
    have hxfp : x.1 ≠ fp := by
      exact (List.pairwise_append.mp hpw).2.2 x hx (fp, fpnd)
        (List.mem_cons_self _ _)
    rw [readCell_writeNext_ne h2 hxnp, readCell_writeNext_ne h1 hxfp]
  rw [hdec] at hL
  exact NChain_graft A hL hAframe htail

/-- Inserting one key into a sorted chain decomposition keeps it sorted. -/
theorem sortedHashes_insert {A B : List (Ptr × Node)} {fp np : Ptr}
    {fpnd fpnd2 npnd2 : Node}
    (h : sortedHashes (A ++ (fp, fpnd) :: B))
    (hfp2 : fpnd2.hash = fpnd.hash)
    (hle : fpnd.hash ≤ npnd2.hash)
    (hB : ∀ b, B.head? = some b → npnd2.hash ≤ b.2.hash) :
    sortedHashes (A ++ (fp, fpnd2) :: (np, npnd2) :: B) := by
  unfold sortedHashes at h ⊢
  simp only [List.map_append, List.map_cons] at h ⊢
  rw [hfp2]
  refine chain'_insert _ _ _ _ h hle ?_
  intro b hb
  rw [List.head?_map] at hb
  cases hB2 : B.head? with
  | none => rw [hB2] at hb; exact absurd hb (by simp)
  | some x =>
    rw [hB2] at hb
    simp only [Option.map_some'] at hb
    cases hb
    exact hB x hB2

/-- `sortedHashes_insert` with the inserted pointer and records given
explicitly. -/
theorem sortedHashes_insert_at {A B : List (Ptr × Node)} {fp : Ptr}
    (np : Ptr) {fpnd : Node} (fpnd2 npnd2 : Node)
    (h : sortedHashes (A ++ (fp, fpnd) :: B))
    (hfp2 : fpnd2.hash = fpnd.hash)
    (hle : fpnd.hash ≤ npnd2.hash)
    (hB : ∀ b, B.head? = some b → npnd2.hash ≤ b.2.hash) :
    sortedHashes (A ++ (fp, fpnd2) :: (np, npnd2) :: B) :=
  @sortedHashes_insert A B fp np fpnd fpnd2 npnd2 h hfp2 hle hB

/-- `NextOK` is monotone in the block bound. -/
theorem NextOK_mono {s : SL} {n m : Nat} (h : NextOK s n) (hnm : n ≤ m) :
    NextOK s m := by
  intro p nd hr q hq
  obtain ⟨h1, h2⟩ := h p nd hr q hq
  exact ⟨h1, Nat.lt_of_lt_of_le h2 hnm⟩

/-- A full-cell write preserves `NextOK` when the written link is in
lane and in bounds. -/
theorem NextOK_writeCell {s s' : SL} {p : Ptr} {nd : Node} {m : Nat}
    (hm : NextOK s m) (hw : writeCell s p nd = some s')
    (hq : ∀ r, nd.next = some r → r.slot = p.slot ∧ r.blk < m) :
    NextOK s' m := by
  intro r ndr hr q hqr
  by_cases hrp : r = p
  · subst hrp
    rw [readCell_writeCell_self hw] at hr
    cases hr
    exact hq q hqr
  · rw [readCell_writeCell_ne hw hrp] at hr
    exact hm r ndr hr q hqr

/-- A link write preserves `NextOK` when the new link is in lane and in
bounds. -/
theorem NextOK_writeNext {s s' : SL} {p : Ptr} {q : Option Ptr} {m : Nat}
    (hm : NextOK s m) (hw : writeNext s p q = some s')
    (hq : ∀ r, q = some r → r.slot = p.slot ∧ r.blk < m) :
    NextOK s' m := by
  obtain ⟨nd, _, hwc⟩ := writeNext_cases hw
  exact NextOK_writeCell hm hwc hq

/-- A link write preserves `HashOK` (keys are untouched). -/
theorem HashOK_writeNext {s s' : SL} {p : Ptr} {q : Option Ptr}
    (hh : HashOK s) (hw : writeNext s p q = some s') : HashOK s' := by
  obtain ⟨nd, hrp, hwc⟩ := writeNext_cases hw
  intro r ndr hr
  by_cases hrp2 : r = p
  · subst hrp2
    rw [readCell_writeCell_self hwc] at hr
    cases hr
    obtain ⟨nd0, h0, hhash⟩ := hh r nd hrp
    by_cases hz : (⟨r.blk, 0⟩ : Ptr) = r
    · refine ⟨{ nd with next := q }, ?_, ?_⟩
      · rw [hz]; exact readCell_writeCell_self hwc
      · rfl
    · exact ⟨nd0, by rw [readCell_writeCell_ne hwc hz]; exact h0, hhash⟩
  · rw [readCell_writeCell_ne hwc hrp2] at hr
    obtain ⟨nd0, h0, hhash⟩ := hh r ndr hr
    by_cases hz : (⟨r.blk, 0⟩ : Ptr) = p
    · refine ⟨{ nd with next := q }, ?_, ?_⟩
      · rw [hz]; exact readCell_writeCell_self hwc
      · rw [hz] at h0
        rw [hrp] at h0
        cases h0
        exact hhash
    · exact ⟨nd0, by rw [readCell_writeCell_ne hwc hz]; exact h0, hhash⟩

/-- A full-cell write at a slot above 0 preserves `HashOK` when the
written key agrees with the block's slot-0 key. -/
theorem HashOK_writeCell_pos {s s' : SL} {p : Ptr} {nd : Node}
    (hh : HashOK s) (hw : writeCell s p nd = some s') (hps : p.slot ≠ 0)
    (hcons : ∃ nd0, readCell s ⟨p.blk, 0⟩ = some nd0 ∧ nd.hash = nd0.hash) :
    HashOK s' := by
  intro r ndr hr
  have hz : ∀ b : Nat, (⟨b, 0⟩ : Ptr) ≠ p := by
    intro b hb
    apply hps
    rw [← hb]
  by_cases hrp : r = p
  · subst hrp
    rw [readCell_writeCell_self hw] at hr
    cases hr
    obtain ⟨nd0, h0, hhash⟩ := hcons
    exact ⟨nd0, by rw [readCell_writeCell_ne hw (hz r.blk)]; exact h0, hhash⟩
  · rw [readCell_writeCell_ne hw hrp] at hr
    obtain ⟨nd0, h0, hhash⟩ := hh r ndr hr
    exact ⟨nd0, by rw [readCell_writeCell_ne hw (hz r.blk)]; exact h0, hhash⟩

/-- Specification of one lane's descent walk: every landing point stays in
the lane's slot, below the old allocation bound, and in a block whose key
is below the inserted key; a fall-through additionally has a NULL link. -/
theorem walk_spec {cmp : Int → Int → Int} {s : SL} {h : Int} {n σ : Nat}
    (hn : NextOK s n) (hh : HashOK s) (hc : CmpOK cmp) :
    ∀ (fuel : Nat) (pt prevI : Ptr) (res : WalkRes),
      walk cmp s h pt prevI fuel = some res →
      pt.slot = σ → pt.blk < n → BlkBelow s h pt →
      prevI.slot = σ → prevI.blk < n → BlkBelow s h prevI →
      (∀ q, res = .fellThrough q → q.slot = σ ∧ q.blk < n ∧
        BlkBelow s h q ∧ ∃ qnd, readCell s q = some qnd ∧ qnd.next = none) ∧
      (∀ pr, res = .insertHere pr → pr.slot = σ ∧ pr.blk < n ∧
        BlkBelow s h pr) := by
  intro fuel
  induction fuel with
  | zero => intro pt prevI res hres; exact absurd hres (by simp [walk])
  | succ fuel ih =>
    intro pt prevI res hres hs1 hb1 hbb1 hs2 hb2 hbb2
    unfold walk at hres
    split at hres
    · exact absurd hres (by simp)
    next nd hrd =>
      split at hres
      next hnone =>
        cases hres
        constructor
        · intro q hq
          cases hq
          exact ⟨hs1, hb1, hbb1, nd, hrd, hnone⟩
        · intro pr hpr; cases hpr
      next nxt hnxt =>
        split at hres
        · exact absurd hres (by simp)
        next nnd hrnxt =>
          split at hres
          next hcmp =>
            have hlt : nnd.hash < h := by
              have := ((hc h nnd.hash).2.2).mp (by rw [hcmp]; omega)
              exact this
            have hq := hn pt nd hrd nxt hnxt
            have hbbnxt : BlkBelow s h nxt := by
              intro nd0 h0
              obtain ⟨nd0', h0', hhash⟩ := hh nxt nnd hrnxt
              rw [h0'] at h0
              cases h0
              rw [← hhash]
              exact hlt
            exact ih nxt pt res hres (hq.1.trans hs1) hq.2 hbbnxt hs1 hb1
              hbb1
          next hcmp =>
            cases hres
            constructor
            · intro q hq; cases hq
            · intro pr hpr
              cases hpr
              exact ⟨hs2, hb2, hbb2⟩

/-- Operational characterization of `ll_insert`'s scan: it returns a
predecessor reachable along lane 0 whose key is at most the new key, and
performs exactly the two splice writes of one of its two exits. -/
theorem llScan_elim {cmp : Int → Int → Int} {np : Ptr} {h : Int} {n : Nat}
    (hc : CmpOK cmp) :
    ∀ (fuel : Nat) (s : SL) (prev ret : Ptr) (s2 : SL),
      llScan cmp np h s prev fuel = some (ret, s2) →
      NextOK s n → prev.slot = 0 → prev.blk < n →
      (∀ x, readCell s prev = some x → x.hash ≤ h) →
      ∃ retnd, readCell s ret = some retnd ∧ retnd.hash ≤ h ∧
        ret.slot = 0 ∧ ret.blk < n ∧
        ((retnd.next = none ∧ ∃ s1, writeNext s ret (some np) = some s1 ∧
            writeNext s1 np none = some s2) ∨
         (∃ pt ptnd, retnd.next = some pt ∧ readCell s pt = some ptnd ∧
            0 < cmp ptnd.hash h ∧
            ∃ s1, writeNext s np (some pt) = some s1 ∧
              writeNext s1 ret (some np) = some s2)) := by
  intro fuel
  induction fuel with
  | zero => intro s prev ret s2 hres; exact absurd hres (by simp [llScan])
  | succ fuel ih =>
    intro s prev ret s2 hres hn hps hpb hph
    unfold llScan at hres
    split at hres
    · exact absurd hres (by simp)
    next pnd hrd =>
      split at hres
      next hnone =>
        split at hres
        · exact absurd hres (by simp)
        next s1 hw1 =>
          obtain ⟨s2', hw2, heq⟩ := Option.map_eq_some'.mp hres
          obtain ⟨heq1, heq2⟩ := Prod.mk.injEq .. ▸ heq
          subst heq1
          subst heq2
          exact ⟨pnd, hrd, hph pnd hrd, hps, hpb,
            Or.inl ⟨hnone, s1, hw1, hw2⟩⟩
      next pt hnext =>
        split at hres
        · exact absurd hres (by simp)
        next ptnd hrpt =>
          split at hres
          next hcmp =>
            split at hres
            · exact absurd hres (by simp)
            next s1 hw1 =>
              obtain ⟨s2', hw2, heq⟩ := Option.map_eq_some'.mp hres
              obtain ⟨heq1, heq2⟩ := Prod.mk.injEq .. ▸ heq
              subst heq1
              subst heq2
              exact ⟨pnd, hrd, hph pnd hrd, hps, hpb,
                Or.inr ⟨pt, ptnd, hnext, hrpt, hcmp, s1, hw1, hw2⟩⟩
          next hcmp =>
            have hq := hn prev pnd hrd pt hnext
            refine ih s pt ret s2 hres hn (hq.1.trans hps) hq.2 ?_
            intro x hx
            rw [hrpt] at hx
            cases hx
            have : ¬ h < ptnd.hash := by
              intro hlt
              exact hcmp (((hc ptnd.hash h).2.2).mpr hlt)
            omega

/-- The record stored at a chain member is what the state reads there. -/
theorem NChain_read_mem {s : SL} {o : Option Ptr} {L : List (Ptr × Node)}
    {p : Ptr} {y : Node} (hL : NChain s o L) (hm : (p, y) ∈ L) :
    readCell s p = some y := by
  obtain ⟨A, B, hdec⟩ := List.append_of_mem hm
  exact (NChain_cons_inv (NChain_suffix hL hdec)).1

/-- `ll_insert` preserves the structural invariants and lane-0 sorted
chain, and returns an in-bounds lane-0 predecessor. -/
theorem ll_insert_spec {cmp : Int → Int → Int} {s s2 : SL}
    {np start ret : Ptr} {npnd : Node} {h : Int} {n m : Nat}
    {L : List (Ptr × Node)} {fuel : Nat}
    (hc : CmpOK cmp) (hn : NextOK s n) (hh : HashOK s)
    (hnp : readCell s np = some npnd) (hnph : npnd.hash = h)
    (hnps : np.slot = 0) (hnpb : n ≤ np.blk) (hnpm : np.blk < m)
    (hnm : n ≤ m)
    (hss : start.slot = 0) (hsb : start.blk < n)
    (hsh : ∀ x, readCell s start = some x → x.hash < h)
    (hhd0 : ∀ q, getHead s 0 = some q → q.slot = 0 ∧ q.blk < n)
    (hL : NChain s (getHead s 0) L) (hsort : sortedHashes L)
    (hres : ll_insert cmp s np h start fuel = some (ret, s2)) :
    s2.heads = s.heads ∧ s2.blocks.length = s.blocks.length ∧
    NextOK s2 m ∧ HashOK s2 ∧
    (∃ L2, NChain s2 (getHead s2 0) L2 ∧ sortedHashes L2) ∧
    ret.slot = 0 ∧ ret.blk < n ∧
    (∀ r, (∃ x, readCell s r = some x) → ∃ x, readCell s2 r = some x) := by
  have hLblks : ∀ x, x ∈ L → x.1.blk < n :=
    NChain_blks hn hL fun q hq => (hhd0 q hq).2
  have hLslots : ∀ x, x ∈ L → x.1.slot = 0 :=
    NChain_slots hn hL fun q hq => (hhd0 q hq).1
  have hfresh : ∀ x, x ∈ L → x.1 ≠ np := by
    intro x hx hxe
    have := hLblks x hx
    rw [hxe] at this
    omega
  unfold ll_insert at hres
  split at hres
  · exact absurd hres (by simp)
  next snd hrs =>
    have hslt : snd.hash < h := hsh snd hrs
    split at hres
    · exact absurd hres (by simp)
    next hc0 =>
      split at hres
      next he0 =>
        exfalso
        have := ((hc h snd.hash).2.1).mp he0
        omega
      next he0 =>
        obtain ⟨retnd, hret, hreth, hrets, hretb, hcase⟩ :=
          llScan_elim hc fuel s start ret s2 hres hn hss hsb
            (fun x hx => le_of_lt (hsh x hx))
        rcases hcase with ⟨hnone, s1, hw1, hw2⟩ |
          ⟨pt, ptnd, hnext, hrpt, hcmp, s1, hw1, hw2⟩
        · -- tail append: ret->next = node; node->next = NULL
          have hheads : s2.heads = s.heads :=
            (writeNext_heads hw2).trans (writeNext_heads hw1)
          have hlen : s2.blocks.length = s.blocks.length :=
            (writeNext_length hw2).trans (writeNext_length hw1)
          have hn1 : NextOK s1 m :=
            NextOK_writeNext (NextOK_mono hn hnm) hw1
              (fun r hr => by cases hr; exact ⟨hnps.trans hrets.symm, hnpm⟩)
          have hn2 : NextOK s2 m :=
            NextOK_writeNext hn1 hw2 (fun r hr => by cases hr)
          have hh2 : HashOK s2 :=
            HashOK_writeNext (HashOK_writeNext hh hw1) hw2
          have hdef : ∀ r, (∃ x, readCell s r = some x) →
              ∃ x, readCell s2 r = some x :=
            fun r hr => defined_writeNext hw2 (defined_writeNext hw1 hr)
          have hghd : getHead s2 0 = getHead s 0 := by
            unfold getHead; rw [hheads]
          refine ⟨hheads, hlen, hn2, hh2, ?_, hrets, hretb, hdef⟩
          by_cases hmem : (ret, retnd) ∈ L
          · obtain ⟨A, B, hdec⟩ := List.append_of_mem hmem
            have hsfx := NChain_suffix_at A hL hdec
            have hB := (NChain_cons_inv hsfx).2
            rw [hnone] at hB
            have hBnil := NChain_none_elim hB
            subst hBnil
            have hchain := chain_splice_end hL hdec hnp hfresh hw1 hw2
            refine ⟨_, by rw [hghd]; exact hchain, ?_⟩
            have hs0 : sortedHashes (A ++ (ret, retnd) :: []) := by
              rw [hdec] at hsort; exact hsort
            have := sortedHashes_insert_at np
              { retnd with next := some np }
              { npnd with next := none } hs0 rfl
              (by show retnd.hash ≤ npnd.hash; omega)
              (by intro b hb; exact absurd hb (by simp))
            exact this
          · have hnotin : ∀ x, x ∈ L → x.1 ≠ ret := by
              intro x hx hxe
              apply hmem
              obtain ⟨px, yx⟩ := x
              simp only at hxe
              subst hxe
              have := NChain_read_mem hL hx
              rw [hret] at this
              cases this
              exact hx
            have hchain := NChain_frame_writeNext
              (NChain_frame_writeNext hL hw1 hnotin) hw2
              (fun x hx => hfresh x hx)
            exact ⟨L, by rw [hghd]; exact hchain, hsort⟩
        · -- mid splice: node->next = pt; ret->next = node
          have hheads : s2.heads = s.heads :=
            (writeNext_heads hw2).trans (writeNext_heads hw1)
          have hlen : s2.blocks.length = s.blocks.length :=
            (writeNext_length hw2).trans (writeNext_length hw1)
          have hptfacts := hn ret retnd hret pt hnext
          have hn1 : NextOK s1 m :=
            NextOK_writeNext (NextOK_mono hn hnm) hw1
              (fun r hr => by
                cases hr
                exact ⟨hptfacts.1.trans (hrets.trans hnps.symm),
                  Nat.lt_of_lt_of_le hptfacts.2 hnm⟩)
          have hn2 : NextOK s2 m :=
            NextOK_writeNext hn1 hw2
              (fun r hr => by cases hr; exact ⟨hnps.trans hrets.symm, hnpm⟩)
          have hh2 : HashOK s2 :=
            HashOK_writeNext (HashOK_writeNext hh hw1) hw2
          have hdef : ∀ r, (∃ x, readCell s r = some x) →
              ∃ x, readCell s2 r = some x :=
            fun r hr => defined_writeNext hw2 (defined_writeNext hw1 hr)
          have hghd : getHead s2 0 = getHead s 0 := by
            unfold getHead; rw [hheads]
          refine ⟨hheads, hlen, hn2, hh2, ?_, hrets, hretb, hdef⟩
          by_cases hmem : (ret, retnd) ∈ L
          · obtain ⟨A, B, hdec⟩ := List.append_of_mem hmem
            have hsfx := NChain_suffix_at A hL hdec
            have hB := (NChain_cons_inv hsfx).2
            rw [hnext] at hB
            obtain ⟨ptnd', B', hBdec, hrpt', hB'⟩ := NChain_cons_elim hB
            rw [hrpt] at hrpt'
            cases hrpt'
            subst hBdec
            have hw1' : writeNext s np retnd.next = some s1 := by
              rw [hnext]; exact hw1
            have hchain := chain_splice_mid hL hdec hnp hfresh hw1' hw2
            refine ⟨_, by rw [hghd]; exact hchain, ?_⟩
            have hs0 : sortedHashes (A ++ (ret, retnd) ::
                (pt, ptnd) :: B') := by
              rw [hdec] at hsort; exact hsort
            have hhpt : h < ptnd.hash := ((hc ptnd.hash h).2.2).mp hcmp
            have := sortedHashes_insert_at np
              { retnd with next := some np }
              { npnd with next := retnd.next } hs0 rfl
              (by show retnd.hash ≤ npnd.hash; omega)
              (by
                intro b hb
                simp only [List.head?_cons, Option.some.injEq] at hb
                subst hb
                show npnd.hash ≤ ptnd.hash
                omega)
            exact this
          · have hnotin : ∀ x, x ∈ L → x.1 ≠ ret := by
              intro x hx hxe
              apply hmem
              obtain ⟨px, yx⟩ := x
              simp only at hxe
              subst hxe
              have := NChain_read_mem hL hx
              rw [hret] at this
              cases this
              exact hx
            have hchain := NChain_frame_writeNext
              (NChain_frame_writeNext hL hw1 hfresh) hw2 hnotin
            exact ⟨L, by rw [hghd]; exact hchain, hsort⟩

/-- The promotion loop preserves the structural invariants, never touches
lane-0 (slot-0) records, and keeps heads and allocation count. -/
theorem promote_spec {m nb : Nat} {p1 p2 p3 : Ptr}
    (hp1 : p1.slot = 1 ∧ p1.blk < m) (hp2 : p2.slot = 2 ∧ p2.blk < m)
    (hp3 : p3.slot = 3 ∧ p3.blk < m) (hnb : nb < m) :
    ∀ (fuel i : Nat) (s s2 : SL) (rolls rolls2 : List Bool), 1 ≤ i →
      sl_promote s rolls nb p1 p2 p3 i fuel = some (s2, rolls2) →
      NextOK s m → HashOK s →
      NextOK s2 m ∧ HashOK s2 ∧ s2.heads = s.heads ∧
      s2.blocks.length = s.blocks.length ∧
      (∀ p : Ptr, p.slot = 0 → readCell s2 p = readCell s p) ∧
      (∀ r, (∃ x, readCell s r = some x) → ∃ x, readCell s2 r = some x) := by
  intro fuel
  induction fuel with
  | zero =>
    intro i s s2 rolls rolls2 hi hres
    exact absurd hres (by simp [sl_promote])
  | succ fuel ih =>
    intro i s s2 rolls rolls2 hi hres hm hh
    unfold sl_promote at hres
    rcases hpop : popB false rolls with ⟨r, rolls1⟩
    rw [hpop] at hres
    simp only at hres
    split at hres
    · rename_i hcond
      have hi4 : i < 4 := by
        rcases Bool.and_eq_true .. |>.mp hcond with ⟨_, h2⟩
        exact of_decide_eq_true h2
      split at hres
      · exact absurd hres (by simp)
      next nd0 hrnd0 =>
        split at hres
        · exact absurd hres (by simp)
        next pnd hrpnd =>
          split at hres
          · exact absurd hres (by simp)
          next s1 hw1 =>
            split at hres
            · exact absurd hres (by simp)
            next sB hw2 =>
              have hpi : (if i = 1 then p1 else if i = 2 then p2
                  else p3).slot = i ∧
                  (if i = 1 then p1 else if i = 2 then p2 else p3).blk
                    < m := by
                interval_cases i
                · simpa using hp1
                · simpa using hp2
                · simpa using hp3
              have hizero : i ≠ 0 := by omega
              have hn1 : NextOK s1 m :=
                NextOK_writeCell hm hw1 (fun r hr => by
                  have := hm _ pnd hrpnd r hr
                  exact ⟨this.1.trans hpi.1, this.2⟩)
              have hh1 : HashOK s1 :=
                HashOK_writeCell_pos hh hw1 hizero ⟨nd0, hrnd0, rfl⟩
              have hn2 : NextOK sB m :=
                NextOK_writeNext hn1 hw2 (fun r hr => by
                  cases hr
                  exact ⟨hpi.1.symm, hnb⟩)
              have hh2 : HashOK sB :=
                HashOK_writeNext hh1 hw2
              have hheads : sB.heads = s.heads :=
                (writeNext_heads hw2).trans (writeCell_heads hw1)
              have hlen : sB.blocks.length = s.blocks.length :=
                (writeNext_length hw2).trans (writeCell_length hw1)
              have hzero : ∀ p : Ptr, p.slot = 0 →
                  readCell sB p = readCell s p := by
                intro p hp0
                have hne1 : p ≠ (⟨nb, i⟩ : Ptr) := by
                  intro hco
                  rw [hco] at hp0
                  exact hizero hp0
                have hne2 : p ≠ (if i = 1 then p1 else if i = 2 then p2
                    else p3) := by
                  intro hco
                  apply hizero
                  rw [← hpi.1, ← hco, hp0]
                rw [readCell_writeNext_ne hw2 hne2,
                  readCell_writeCell_ne hw1 hne1]
              have hdefs : ∀ r, (∃ x, readCell s r = some x) →
                  ∃ x, readCell sB r = some x :=
                fun r hr => defined_writeNext hw2 (defined_writeCell hw1 hr)
              obtain ⟨c1, c2, c3, c4, c5, c6⟩ :=
                ih (i + 1) sB s2 _ rolls2 (by omega) hres hn2 hh2
              refine ⟨c1, c2, c3.trans hheads, c4.trans hlen, ?_, ?_⟩
              · intro p hp0
                rw [c5 p hp0, hzero p hp0]
              · intro r hr
                exact c6 r (hdefs r hr)
    · cases hres
      exact ⟨hm, hh, rfl, rfl, fun p _ => rfl, fun r hr => hr⟩

/-- Unpack pointer subtraction. -/
theorem psub_elim {p q : Ptr} {k : Nat} (h : psub p k = some q) :
    q.blk = p.blk ∧ q.slot = p.slot - k ∧ k ≤ p.slot := by
  unfold psub at h
  split at h
  next hk =>
    cases h
    exact ⟨rfl, rfl, hk⟩
  · exact absurd h (by simp)

/-- The descent's bottom append (`prev_pts[0]->next = node;
node->next = NULL`) preserves the invariants and the sorted lane-0
chain. -/
theorem append_writes_spec {s s1 s2 : SL} {q0 np : Ptr} {q0nd npnd : Node}
    {h : Int} {n m : Nat} {L : List (Ptr × Node)}
    (hn : NextOK s n) (hh : HashOK s)
    (hnp : readCell s np = some npnd) (hnph : npnd.hash = h)
    (hnps : np.slot = 0) (hnpb : n ≤ np.blk) (hnpm : np.blk < m)
    (hnm : n ≤ m)
    (hq0s : q0.slot = 0) (hq0r : readCell s q0 = some q0nd)
    (hq0h : q0nd.hash ≤ h) (hq0n : q0nd.next = none)
    (hhd0 : ∀ q, getHead s 0 = some q → q.slot = 0 ∧ q.blk < n)
    (hL : NChain s (getHead s 0) L) (hsort : sortedHashes L)
    (h1 : writeNext s q0 (some np) = some s1)
    (h2 : writeNext s1 np none = some s2) :
    s2.heads = s.heads ∧ s2.blocks.length = s.blocks.length ∧
    NextOK s2 m ∧ HashOK s2 ∧
    (∃ L2, NChain s2 (getHead s2 0) L2 ∧ sortedHashes L2) ∧
    (∀ r, (∃ x, readCell s r = some x) → ∃ x, readCell s2 r = some x) := by
  have hLblks : ∀ x, x ∈ L → x.1.blk < n :=
    NChain_blks hn hL fun q hq => (hhd0 q hq).2
  have hfresh : ∀ x, x ∈ L → x.1 ≠ np := by
    intro x hx hxe
    have := hLblks x hx
    rw [hxe] at this
    omega
  have hheads : s2.heads = s.heads :=
    (writeNext_heads h2).trans (writeNext_heads h1)
  have hlen : s2.blocks.length = s.blocks.length :=
    (writeNext_length h2).trans (writeNext_length h1)
  have hn1 : NextOK s1 m :=
    NextOK_writeNext (NextOK_mono hn hnm) h1
      (fun r hr => by cases hr; exact ⟨hnps.trans hq0s.symm, hnpm⟩)
  have hn2 : NextOK s2 m :=
    NextOK_writeNext hn1 h2 (fun r hr => by cases hr)
  have hh2 : HashOK s2 := HashOK_writeNext (HashOK_writeNext hh h1) h2
  have hdef : ∀ r, (∃ x, readCell s r = some x) →
      ∃ x, readCell s2 r = some x :=
    fun r hr => defined_writeNext h2 (defined_writeNext h1 hr)
  have hghd : getHead s2 0 = getHead s 0 := by
    unfold getHead; rw [hheads]
  refine ⟨hheads, hlen, hn2, hh2, ?_, hdef⟩
  by_cases hmem : (q0, q0nd) ∈ L
  · obtain ⟨A, B, hdec⟩ := List.append_of_mem hmem
    have hsfx := NChain_suffix_at A hL hdec
    have hB := (NChain_cons_inv hsfx).2
    rw [hq0n] at hB
    have hBnil := NChain_none_elim hB
    subst hBnil
    have hchain := chain_splice_end hL hdec hnp hfresh h1 h2
    refine ⟨_, by rw [hghd]; exact hchain, ?_⟩
    have hs0 : sortedHashes (A ++ (q0, q0nd) :: []) := by
      rw [hdec] at hsort; exact hsort
    exact sortedHashes_insert_at np
      { q0nd with next := some np }
      { npnd with next := none } hs0 rfl
      (by show q0nd.hash ≤ npnd.hash; omega)
      (by intro b hb; exact absurd hb (by simp))
  · have hnotin : ∀ x, x ∈ L → x.1 ≠ q0 := by
      intro x hx hxe
      apply hmem
      obtain ⟨px, yx⟩ := x
      simp only at hxe
      subst hxe
      have := NChain_read_mem hL hx
      rw [hq0r] at this
      cases this
      exact hx
    have hchain := NChain_frame_writeNext
      (NChain_frame_writeNext hL h1 hnotin) h2 hfresh
    exact ⟨L, by rw [hghd]; exact hchain, hsort⟩

/-- The insert-branch tail: `ll_insert` splice followed by promotion
preserves the invariants and the sorted lane-0 chain. -/
theorem insEnd_spec {cmp : Int → Int → Int} {s s2 : SL} {np start : Ptr}
    {npnd : Node} {h : Int} {n m : Nat} {L : List (Ptr × Node)}
    {mkPrevs : Ptr → Ptr × Ptr × Ptr} {rolls rolls2 : List Bool}
    {fuel : Nat}
    (hc : CmpOK cmp) (hn : NextOK s n) (hh : HashOK s)
    (hnp : readCell s np = some npnd) (hnph : npnd.hash = h)
    (hnps : np.slot = 0) (hnpb : n ≤ np.blk) (hnpm : np.blk < m)
    (hnm : n ≤ m)
    (hss : start.slot = 0) (hsb : start.blk < n)
    (hsh : ∀ x, readCell s start = some x → x.hash < h)
    (hhd0 : ∀ q, getHead s 0 = some q → q.slot = 0 ∧ q.blk < n)
    (hL : NChain s (getHead s 0) L) (hsort : sortedHashes L)
    (hmk : ∀ ret : Ptr, ret.slot = 0 → ret.blk < n →
      ((mkPrevs ret).1.slot = 1 ∧ (mkPrevs ret).1.blk < m) ∧
      ((mkPrevs ret).2.1.slot = 2 ∧ (mkPrevs ret).2.1.blk < m) ∧
      ((mkPrevs ret).2.2.slot = 3 ∧ (mkPrevs ret).2.2.blk < m))
    (hres : insEnd cmp s np h start mkPrevs rolls fuel = some (s2, rolls2)) :
    s2.heads = s.heads ∧ s2.blocks.length = s.blocks.length ∧
    NextOK s2 m ∧ HashOK s2 ∧
    (∃ L2, NChain s2 (getHead s2 0) L2 ∧ sortedHashes L2) ∧
    (∀ r, (∃ x, readCell s r = some x) → ∃ x, readCell s2 r = some x) := by
  unfold insEnd at hres
  split at hres
  · exact absurd hres (by simp)
  next ret s1 hll =>
    obtain ⟨hheads1, hlen1, hn1, hh1, ⟨L1, hL1, hsort1⟩, hrets, hretb,
      hdef1⟩ :=
      ll_insert_spec hc hn hh hnp hnph hnps hnpb hnpm hnm hss hsb hsh
        hhd0 hL hsort hll
    obtain ⟨⟨hmk1s, hmk1b⟩, ⟨hmk2s, hmk2b⟩, ⟨hmk3s, hmk3b⟩⟩ :=
      hmk ret hrets hretb
    rcases hmkeq : mkPrevs ret with ⟨p1, p2, p3⟩
    rw [hmkeq] at hres hmk1s hmk1b hmk2s hmk2b hmk3s hmk3b
    simp only at hres hmk1s hmk1b hmk2s hmk2b hmk3s hmk3b
    obtain ⟨hn2, hh2, hheads2, hlen2, hzero2, hdef2⟩ :=
      promote_spec ⟨hmk1s, hmk1b⟩ ⟨hmk2s, hmk2b⟩ ⟨hmk3s, hmk3b⟩ hnpm
        (NUM_LISTS + 1) 1 s1 s2 rolls rolls2 (by omega) hres hn1 hh1
    have hghd1 : getHead s1 0 = getHead s 0 := by
      unfold getHead; rw [hheads1]
    have hghd2 : getHead s2 0 = getHead s1 0 := by
      unfold getHead; rw [hheads2]
    have hL1slots : ∀ x, x ∈ L1 → x.1.slot = 0 :=
      NChain_slots hn1 hL1 (fun q hq =>
        (hhd0 q (by rw [← hghd1]; exact hq)).1)
    have hchain2 : NChain s2 (getHead s2 0) L1 := by
      rw [hghd2]
      exact NChain_frame hL1 fun x hx => hzero2 x.1 (hL1slots x hx)
    exact ⟨hheads2.trans hheads1, hlen2.trans hlen1, hn2, hh2,
      ⟨L1, hchain2, hsort1⟩, fun r hr => hdef2 r (hdef1 r hr)⟩

/-- The whole traversal branch of `sl_insert` preserves the invariants
and the sorted lane-0 chain. -/
theorem slInsertGo_spec {cmp : Int → Int → Int} {s s2 : SL} {np : Ptr}
    {npnd : Node} {h : Int} {n m : Nat} {L : List (Ptr × Node)}
    {rolls rolls2 : List Bool} {fuel : Nat}
    (hc : CmpOK cmp) (hn : NextOK s n) (hh : HashOK s)
    (hnp : readCell s np = some npnd) (hnph : npnd.hash = h)
    (hnps : np.slot = 0) (hnpb : n ≤ np.blk) (hnpm : np.blk < m)
    (hnm : n ≤ m)
    (hh3 : ∀ q, getHead s 3 = some q → q.slot = 3 ∧ q.blk < n ∧
      BlkBelow s h q)
    (hhd0 : ∀ q, getHead s 0 = some q → q.slot = 0 ∧ q.blk < n)
    (hL : NChain s (getHead s 0) L) (hsort : sortedHashes L)
    (hres : slInsertGo cmp s np h rolls fuel = some (s2, rolls2)) :
    s2.heads = s.heads ∧ s2.blocks.length = s.blocks.length ∧
    NextOK s2 m ∧ HashOK s2 ∧
    (∃ L2, NChain s2 (getHead s2 0) L2 ∧ sortedHashes L2) ∧
    (∀ r, (∃ x, readCell s r = some x) → ∃ x, readCell s2 r = some x) := by
  unfold slInsertGo at hres
  split at hres
  · exact absurd hres (by simp)
  next pt3 hpt3 =>
    obtain ⟨h3s, h3b, h3bb⟩ := hh3 pt3 hpt3
    split at hres
    · exact absurd hres (by simp)
    next pr hw =>
      obtain ⟨hprs, hprb, hprbb⟩ :=
        (walk_spec hn hh hc fuel pt3 pt3 _ hw h3s h3b h3bb h3s h3b
          h3bb).2 pr rfl
      split at hres
      · exact absurd hres (by simp)
      next start hps =>
        obtain ⟨hsb_eq, hss_eq, hk⟩ := psub_elim hps
        have hss : start.slot = 0 := by omega
        have hsb : start.blk < n := by rw [hsb_eq]; exact hprb
        have hstart_pt : start = ⟨pr.blk, 0⟩ := by
          obtain ⟨b, sl⟩ := start
          rw [show b = pr.blk from hsb_eq, show sl = 0 from hss]
        have hsh : ∀ x, readCell s start = some x → x.hash < h := by
          intro x hx
          rw [hstart_pt] at hx
          exact hprbb x hx
        refine insEnd_spec hc hn hh hnp hnph hnps hnpb hnpm hnm hss hsb
          hsh hhd0 hL hsort ?_ hres
        intro ret h0 hb
        refine ⟨⟨?_, ?_⟩, ⟨?_, ?_⟩, ⟨?_, ?_⟩⟩ <;>
          simp only [padd, h0] <;> omega
    next q3 hw =>
      obtain ⟨h3s', h3b', h3bb', q3nd, hq3r, hq3n⟩ :=
        (walk_spec hn hh hc fuel pt3 pt3 _ hw h3s h3b h3bb h3s h3b
          h3bb).1 q3 rfl
      split at hres
      · exact absurd hres (by simp)
      next pt2 hps2 =>
        obtain ⟨h2blk, h2slot, _⟩ := psub_elim hps2
        have h2s : pt2.slot = 2 := by omega
        have h2b : pt2.blk < n := by rw [h2blk]; exact h3b'
        have h2bb : BlkBelow s h pt2 := by
          intro nd0 h0
          apply h3bb'
          rw [← h2blk]
          exact h0
        split at hres
        · exact absurd hres (by simp)
        next pr hw2 =>
          obtain ⟨hprs, hprb, hprbb⟩ :=
            (walk_spec hn hh hc fuel pt2 pt2 _ hw2 h2s h2b h2bb h2s h2b
              h2bb).2 pr rfl
          split at hres
          · exact absurd hres (by simp)
          next start hps =>
            obtain ⟨hsb_eq, hss_eq, hk⟩ := psub_elim hps
            have hss : start.slot = 0 := by omega
            have hsb : start.blk < n := by rw [hsb_eq]; exact hprb
            have hstart_pt : start = ⟨pr.blk, 0⟩ := by
              obtain ⟨b, sl⟩ := start
              rw [show b = pr.blk from hsb_eq, show sl = 0 from hss]
            have hsh : ∀ x, readCell s start = some x → x.hash < h := by
              intro x hx
              rw [hstart_pt] at hx
              exact hprbb x hx
            refine insEnd_spec hc hn hh hnp hnph hnps hnpb hnpm hnm hss
              hsb hsh hhd0 hL hsort ?_ hres
            intro ret h0 hb
            refine ⟨⟨?_, ?_⟩, ⟨?_, ?_⟩, ⟨?_, ?_⟩⟩ <;>
              simp only [padd, h0] <;> omega
        next q2 hw2 =>
          obtain ⟨h2s', h2b', h2bb', q2nd, hq2r, hq2n⟩ :=
            (walk_spec hn hh hc fuel pt2 pt2 _ hw2 h2s h2b h2bb h2s h2b
              h2bb).1 q2 rfl
          split at hres
          · exact absurd hres (by simp)
          next pt1 hps1 =>
            obtain ⟨h1blk, h1slot, _⟩ := psub_elim hps1
            have h1s : pt1.slot = 1 := by omega
            have h1b : pt1.blk < n := by rw [h1blk]; exact h2b'
            have h1bb : BlkBelow s h pt1 := by
              intro nd0 h0
              apply h2bb'
              rw [← h1blk]
              exact h0
            split at hres
            · exact absurd hres (by simp)
            next pr hw1 =>
              obtain ⟨hprs, hprb, hprbb⟩ :=
                (walk_spec hn hh hc fuel pt1 pt1 _ hw1 h1s h1b h1bb h1s
                  h1b h1bb).2 pr rfl
              split at hres
              · exact absurd hres (by simp)
              next start hps =>
                obtain ⟨hsb_eq, hss_eq, hk⟩ := psub_elim hps
                have hss : start.slot = 0 := by omega
                have hsb : start.blk < n := by rw [hsb_eq]; exact hprb
                have hstart_pt : start = ⟨pr.blk, 0⟩ := by
                  obtain ⟨b, sl⟩ := start
                  rw [show b = pr.blk from hsb_eq, show sl = 0 from hss]
                have hsh : ∀ x, readCell s start = some x →
                    x.hash < h := by
                  intro x hx
                  rw [hstart_pt] at hx
                  exact hprbb x hx
                refine insEnd_spec hc hn hh hnp hnph hnps hnpb hnpm hnm
                  hss hsb hsh hhd0 hL hsort ?_ hres
                intro ret h0 hb
                refine ⟨⟨?_, ?_⟩, ⟨?_, ?_⟩, ⟨?_, ?_⟩⟩
                · show (padd ret 1).slot = 1
                  simp [padd, h0]
                · show (padd ret 1).blk < m
                  simp only [padd]
                  omega
                · exact h2s'
                · show q2.blk < m
                  omega
                · exact h3s'
                · show q3.blk < m
                  omega
            next q1 hw1 =>
              obtain ⟨h1s', h1b', h1bb', q1nd, hq1r, hq1n⟩ :=
                (walk_spec hn hh hc fuel pt1 pt1 _ hw1 h1s h1b h1bb h1s
                  h1b h1bb).1 q1 rfl
              split at hres
              · exact absurd hres (by simp)
              next pt0 hps0 =>
                obtain ⟨h0blk, h0slot, _⟩ := psub_elim hps0
                have h0s : pt0.slot = 0 := by omega
                have h0b : pt0.blk < n := by rw [h0blk]; exact h1b'
                have h0bb : BlkBelow s h pt0 := by
                  intro nd0 hh0
                  apply h1bb'
                  rw [← h0blk]
                  exact hh0
                split at hres
                · exact absurd hres (by simp)
                next pr hw0 =>
                  obtain ⟨hprs, hprb, hprbb⟩ :=
                    (walk_spec hn hh hc fuel pt0 pt0 _ hw0 h0s h0b h0bb
                      h0s h0b h0bb).2 pr rfl
                  have hpr_pt : pr = ⟨pr.blk, 0⟩ := by
                    obtain ⟨b, sl⟩ := pr
                    rw [show sl = 0 from hprs]
                  have hsh : ∀ x, readCell s pr = some x →
                      x.hash < h := by
                    intro x hx
                    rw [hpr_pt] at hx
                    exact hprbb x hx
                  refine insEnd_spec hc hn hh hnp hnph hnps hnpb hnpm hnm
                    hprs hprb hsh hhd0 hL hsort ?_ hres
                  intro ret h0 hb
                  refine ⟨⟨?_, ?_⟩, ⟨?_, ?_⟩, ⟨?_, ?_⟩⟩
                  · exact h1s'
                  · show q1.blk < m
                    omega
                  · exact h2s'
                  · show q2.blk < m
                    omega
                  · exact h3s'
                  · show q3.blk < m
                    omega
                next q0 hw0 =>
                  obtain ⟨h0s', h0b', h0bb', q0nd, hq0r, hq0n⟩ :=
                    (walk_spec hn hh hc fuel pt0 pt0 _ hw0 h0s h0b h0bb
                      h0s h0b h0bb).1 q0 rfl
                  split at hres
                  · exact absurd hres (by simp)
                  next sW1 hwr1 =>
                    split at hres
                    · exact absurd hres (by simp)
                    next sW2 hwr2 =>
                      have hq0_pt : q0 = ⟨q0.blk, 0⟩ := by
                        obtain ⟨b, sl⟩ := q0
                        rw [show sl = 0 from h0s']
                      have hq0h : q0nd.hash ≤ h := by
                        have : readCell s (⟨q0.blk, 0⟩ : Ptr) =
                            some q0nd := by rw [← hq0_pt]; exact hq0r
                        exact le_of_lt (h0bb' q0nd this)
                      obtain ⟨cheads, clen, cn, chh, ⟨L2, cL2, csort⟩,
                        cdef⟩ :=
                        append_writes_spec hn hh hnp hnph hnps hnpb hnpm
                          hnm h0s' hq0r hq0h hq0n hhd0 hL hsort hwr1 hwr2
                      obtain ⟨pn2, ph2, pheads, plen, pzero, pdef⟩ :=
                        promote_spec ⟨h1s', Nat.lt_of_lt_of_le h1b' hnm⟩
                          ⟨h2s', Nat.lt_of_lt_of_le h2b' hnm⟩
                          ⟨h3s', Nat.lt_of_lt_of_le h3b' hnm⟩ hnpm
                          (NUM_LISTS + 1) 1 sW2 s2 rolls rolls2
                          (by omega) hres cn chh
                      have hghdW : getHead sW2 0 = getHead s 0 := by
                        unfold getHead; rw [cheads]
                      have hghd2 : getHead s2 0 = getHead sW2 0 := by
                        unfold getHead; rw [pheads]
                      have hL2slots : ∀ x, x ∈ L2 → x.1.slot = 0 :=
                        NChain_slots cn cL2 (fun q hq =>
                          (hhd0 q (by rw [← hghdW]; exact hq)).1)
                      have hchain2 : NChain s2 (getHead s2 0) L2 := by
                        rw [hghd2]
                        exact NChain_frame cL2 fun x hx =>
                          pzero x.1 (hL2slots x hx)
                      exact ⟨pheads.trans cheads, plen.trans clen, pn2,
                        ph2, ⟨L2, hchain2, csort⟩,
                        fun r hr => pdef r (cdef r hr)⟩

/-- Reads outside the allocated blocks are indeterminate. -/
theorem readCell_oob {s : SL} {p : Ptr} (h : ¬ p.blk < s.blocks.length) :
    readCell s p = none := by
  unfold readCell
  rw [List.get?_eq_none.mpr (Nat.le_of_not_lt h)]
  rfl

/-- The common prologue of `sl_insert`: allocate the node block and copy
the caller's record into its slot 0 (slots 1-3 stay indeterminate). -/
theorem preamble_spec {s s0 : SL} {d : Node} (hdn : d.next = none)
    (hw : writeCell { s with blocks := s.blocks ++ [undefBlock] }
      ⟨s.blocks.length, 0⟩ d = some s0)
    (hn : NextOK s s.blocks.length) (hh : HashOK s) :
    s0.heads = s.heads ∧ s0.blocks.length = s.blocks.length + 1 ∧
    (∀ p : Ptr, p.blk < s.blocks.length → readCell s0 p = readCell s p) ∧
    readCell s0 ⟨s.blocks.length, 0⟩ = some d ∧
    NextOK s0 s.blocks.length ∧ HashOK s0 := by
  have hheads : s0.heads = s.heads := Eq.trans (writeCell_heads hw) rfl
  have hlen : s0.blocks.length = s.blocks.length + 1 := by
    rw [writeCell_length hw]
    simp
  have hframe : ∀ p : Ptr, p.blk < s.blocks.length →
      readCell s0 p = readCell s p := by
    intro p hp
    have hne : p ≠ ⟨s.blocks.length, 0⟩ := by
      intro hco
      rw [hco] at hp
      exact absurd (show s.blocks.length < s.blocks.length from hp)
        (by omega)
    rw [readCell_writeCell_ne hw hne, readCell_append_old hp]
  have hself : readCell s0 ⟨s.blocks.length, 0⟩ = some d :=
    readCell_writeCell_self hw
  have hfreshrow : ∀ j, j ≠ 0 →
      readCell s0 ⟨s.blocks.length, j⟩ = none := by
    intro j hj
    have hne : (⟨s.blocks.length, j⟩ : Ptr) ≠ ⟨s.blocks.length, 0⟩ := by
      intro hco
      cases hco
      exact hj rfl
    rw [readCell_writeCell_ne hw hne]
    exact readCell_append_new
  have hcases : ∀ p : Ptr, ∀ nd, readCell s0 p = some nd →
      (p.blk < s.blocks.length ∧ readCell s p = some nd) ∨
      (p = ⟨s.blocks.length, 0⟩ ∧ nd = d) := by
    intro p nd hr
    have hblt : p.blk < s.blocks.length + 1 := by
      have := readCell_blk_lt hr
      rw [hlen] at this
      exact this
    by_cases hp : p.blk < s.blocks.length
    · left
      exact ⟨hp, by rw [← hframe p hp]; exact hr⟩
    · right
      have hpe : p.blk = s.blocks.length := by omega
      by_cases hp0 : p.slot = 0
      · have hpp : p = ⟨s.blocks.length, 0⟩ := by
          obtain ⟨bb, sl⟩ := p
          rw [show bb = s.blocks.length from hpe,
            show sl = 0 from hp0]
        rw [hpp] at hr
        rw [hself] at hr
        cases hr
        exact ⟨hpp, rfl⟩
      · exfalso
        have hpp : p = ⟨s.blocks.length, p.slot⟩ := by
          obtain ⟨bb, sl⟩ := p
          rw [show bb = s.blocks.length from hpe]
        rw [hpp] at hr
        rw [hfreshrow p.slot hp0] at hr
        exact absurd hr (by simp)
  refine ⟨hheads, hlen, hframe, hself, ?_, ?_⟩
  · intro p nd hr q hq
    rcases hcases p nd hr with ⟨hp, hrs⟩ | ⟨hpp, hnd⟩
    · exact hn p nd hrs q hq
    · rw [hnd, hdn] at hq
      exact absurd hq (by simp)
  · intro p nd hr
    rcases hcases p nd hr with ⟨hp, hrs⟩ | ⟨hpp, hnd⟩
    · obtain ⟨nd0, h0, hhash⟩ := hh p nd hrs
      have hblt0 : (⟨p.blk, 0⟩ : Ptr).blk < s.blocks.length := hp
      exact ⟨nd0, by rw [hframe _ hblt0]; exact h0, hhash⟩
    · subst hpp
      rw [hnd]
      exact ⟨d, hself, rfl⟩

/-- Writing all four slots of a fresh block (the empty-list and front
paths of `sl_insert`). -/
theorem fresh_block_writes {sbase sa sb sc2 sd : SL}
    {c0 c1 c2 c3 : Node}
    (w0 : writeCell { sbase with blocks := sbase.blocks ++ [undefBlock] }
      ⟨sbase.blocks.length, 0⟩ c0 = some sa)
    (w1 : writeCell sa ⟨sbase.blocks.length, 1⟩ c1 = some sb)
    (w2 : writeCell sb ⟨sbase.blocks.length, 2⟩ c2 = some sc2)
    (w3 : writeCell sc2 ⟨sbase.blocks.length, 3⟩ c3 = some sd) :
    sd.blocks.length = sbase.blocks.length + 1 ∧
    sd.heads = sbase.heads ∧
    (∀ p : Ptr, p.blk < sbase.blocks.length →
      readCell sd p = readCell sbase p) ∧
    readCell sd ⟨sbase.blocks.length, 0⟩ = some c0 ∧
    readCell sd ⟨sbase.blocks.length, 1⟩ = some c1 ∧
    readCell sd ⟨sbase.blocks.length, 2⟩ = some c2 ∧
    readCell sd ⟨sbase.blocks.length, 3⟩ = some c3 ∧
    (∀ p : Ptr, p.blk = sbase.blocks.length → 4 ≤ p.slot →
      readCell sd p = none) := by
  have hlen : sd.blocks.length = sbase.blocks.length + 1 := by
    rw [writeCell_length w3, writeCell_length w2, writeCell_length w1,
      writeCell_length w0]
    simp
  have hheads : sd.heads = sbase.heads := by
    rw [writeCell_heads w3, writeCell_heads w2, writeCell_heads w1,
      writeCell_heads w0]
  have hdiff : ∀ i j : Nat, i ≠ j →
      (⟨sbase.blocks.length, i⟩ : Ptr) ≠ ⟨sbase.blocks.length, j⟩ := by
    intro i j hij hco
    cases hco
    exact hij rfl
  refine ⟨hlen, hheads, ?_, ?_, ?_, ?_, ?_, ?_⟩
  · intro p hp
    have hne : ∀ j : Nat, p ≠ ⟨sbase.blocks.length, j⟩ := by
      intro j hco
      rw [hco] at hp
      exact absurd
        (show sbase.blocks.length < sbase.blocks.length from hp)
        (by omega)
    rw [readCell_writeCell_ne w3 (hne 3), readCell_writeCell_ne w2 (hne 2),
      readCell_writeCell_ne w1 (hne 1), readCell_writeCell_ne w0 (hne 0),
      readCell_append_old hp]
  · rw [readCell_writeCell_ne w3 (hdiff 0 3 (by omega)),
      readCell_writeCell_ne w2 (hdiff 0 2 (by omega)),
      readCell_writeCell_ne w1 (hdiff 0 1 (by omega))]
    exact readCell_writeCell_self w0
  · rw [readCell_writeCell_ne w3 (hdiff 1 3 (by omega)),
      readCell_writeCell_ne w2 (hdiff 1 2 (by omega))]
    exact readCell_writeCell_self w1
  · rw [readCell_writeCell_ne w3 (hdiff 2 3 (by omega))]
    exact readCell_writeCell_self w2
  · exact readCell_writeCell_self w3
  · intro p hpb hps
    have hne : ∀ j : Nat, j < 4 → p ≠ ⟨sbase.blocks.length, j⟩ := by
      intro j hj hco
      rw [hco] at hps
      exact absurd (show 4 ≤ j from hps) (by omega)
    have hpp : p = ⟨sbase.blocks.length, p.slot⟩ := by
      obtain ⟨bb, sl⟩ := p
      rw [show bb = sbase.blocks.length from hpb]
    rw [readCell_writeCell_ne w3 (hne 3 (by omega)),
      readCell_writeCell_ne w2 (hne 2 (by omega)),
      readCell_writeCell_ne w1 (hne 1 (by omega)),
      readCell_writeCell_ne w0 (hne 0 (by omega)), hpp]
    exact readCell_append_new

/-- Heads shaped as one block's four slots resolve `getHead`. -/
theorem getHead_of_heads {s : SL} {b : Nat}
    (h : s.heads = [some ⟨b, 0⟩, some ⟨b, 1⟩, some ⟨b, 2⟩,
      some ⟨b, 3⟩]) :
    getHead s 0 = some ⟨b, 0⟩ ∧ getHead s 3 = some ⟨b, 3⟩ := by
  unfold getHead
  rw [h]
  exact ⟨rfl, rfl⟩

set_option maxHeartbeats 1000000 in
/-- One successful (or failed) `sl_insert` call preserves the inductive
invariant. -/
theorem sl_insert_preserves {cmp : Int → Int → Int} {s : SL} {d : Node}
    {al ro : List Bool} {fuel : Nat} {b : Bool} {rt2 : RT}
    (hc : CmpOK cmp) (hinv : SLInv s) (hdn : d.next = none)
    (hres : sl_insert cmp ⟨s, al, ro⟩ (some d) fuel = some (b, rt2)) :
    SLInv rt2.sl := by
  obtain ⟨⟨hn, hh⟩, hheadsOK, hsortInv⟩ := hinv
  unfold sl_insert at hres
  rcases hpop1 : popB true al with ⟨ok1, al1⟩
  rw [hpop1] at hres
  simp only at hres
  split at hres
  · cases hres
    exact ⟨⟨hn, hh⟩, hheadsOK, hsortInv⟩
  split at hres
  · exact absurd hres (by simp)
  next s0 hw0 =>
    obtain ⟨p_heads, p_len, p_frame, p_self, p_next, p_hash⟩ :=
      preamble_spec hdn hw0 hn hh
    have hInvS0 : SLInv s0 := by
      refine ⟨⟨?_, p_hash⟩, ?_, ?_⟩
      · rw [p_len]
        exact NextOK_mono p_next (by omega)
      · unfold HeadsOK at hheadsOK ⊢
        rw [p_heads]
        rcases hheadsOK with hnone | ⟨bb, hbb, hsh, hdefs⟩
        · exact Or.inl hnone
        · refine Or.inr ⟨bb, by omega, hsh, ?_⟩
          intro i hi
          obtain ⟨nd, hnd⟩ := hdefs i hi
          exact ⟨nd, by rw [p_frame ⟨bb, i⟩ hbb]; exact hnd⟩
      · obtain ⟨L, hL, hsort⟩ := hsortInv
        refine ⟨L, ?_, hsort⟩
        have hgh : getHead s0 0 = getHead s 0 := by
          unfold getHead; rw [p_heads]
        rw [hgh]
        exact NChain_frame hL fun x hx =>
          p_frame x.1 (readCell_blk_lt (NChain_read_mem hL hx))
    split at hres
    next hgh0 =>
      rcases hpop2 : popB true al1 with ⟨ok2, al2⟩
      rw [hpop2] at hres
      simp only at hres
      split at hres
      · cases hres
        exact hInvS0
      split at hres
      · exact absurd hres (by simp)
      next sa hwa =>
        split at hres
        · exact absurd hres (by simp)
        next sb hwb =>
          split at hres
          · exact absurd hres (by simp)
          next sc2 hwc =>
            split at hres
            · exact absurd hres (by simp)
            next sd hwd =>
              cases hres
              obtain ⟨q_len, q_heads, q_frame, q0, q1, q2, q3, q_none⟩ :=
                fresh_block_writes hwa hwb hwc hwd
              have hclass : ∀ (ps : Nat) (ndp : Node), ps < 4 →
                  readCell sd ⟨s0.blocks.length, ps⟩ = some ndp →
                  ndp = { d with next := none } := by
                intro ps ndp h4 hrd
                have h0 : ps = 0 ∨ ps = 1 ∨ ps = 2 ∨ ps = 3 := by omega
                rcases h0 with h0 | h0 | h0 | h0 <;> subst h0
                · rw [q0] at hrd
                  injection hrd with he
                  exact he.symm
                · rw [q1] at hrd
                  injection hrd with he
                  exact he.symm
                · rw [q2] at hrd
                  injection hrd with he
                  exact he.symm
                · rw [q3] at hrd
                  injection hrd with he
                  exact he.symm
              refine ⟨⟨?_, ?_⟩, ?_, ?_⟩
              · rintro ⟨pb, ps⟩ ndp hr q hq
                have hr' : readCell sd ⟨pb, ps⟩ = some ndp := hr
                have hlt : pb < s0.blocks.length + 1 := by
                  have h3 : pb < sd.blocks.length := readCell_blk_lt hr'
                  omega
                by_cases hpb : pb < s0.blocks.length
                · rw [q_frame ⟨pb, ps⟩ hpb] at hr'
                  obtain ⟨hq1, hq2⟩ := p_next _ _ hr' q hq
                  refine ⟨hq1, ?_⟩
                  show q.blk < sd.blocks.length
                  omega
                · have hpe : pb = s0.blocks.length := by omega
                  subst hpe
                  by_cases h4 : ps < 4
                  · have hcell := hclass ps ndp h4 hr'
                    rw [hcell] at hq
                    exact absurd (show (none : Option Ptr) = some q from hq)
                      (by simp)
                  · have h5 := q_none ⟨s0.blocks.length, ps⟩ rfl
                      (by show 4 ≤ ps; omega)
                    rw [h5] at hr'
                    exact absurd hr' (by simp)
              · rintro ⟨pb, ps⟩ ndp hr
                have hr' : readCell sd ⟨pb, ps⟩ = some ndp := hr
                have hlt : pb < s0.blocks.length + 1 := by
                  have h3 : pb < sd.blocks.length := readCell_blk_lt hr'
                  omega
                by_cases hpb : pb < s0.blocks.length
                · rw [q_frame ⟨pb, ps⟩ hpb] at hr'
                  obtain ⟨nd0, h0, hhash⟩ := p_hash _ _ hr'
                  refine ⟨nd0, ?_, hhash⟩
                  show readCell sd ⟨pb, 0⟩ = some nd0
                  rw [q_frame ⟨pb, 0⟩ hpb]
                  exact h0
                · have hpe : pb = s0.blocks.length := by omega
                  subst hpe
                  by_cases h4 : ps < 4
                  · refine ⟨{ d with next := none }, ?_, ?_⟩
                    · show readCell sd ⟨s0.blocks.length, 0⟩ =
                        some { d with next := none }
                      exact q0
                    · rw [hclass ps ndp h4 hr']
                  · have h5 := q_none ⟨s0.blocks.length, ps⟩ rfl
                      (by show 4 ≤ ps; omega)
                    rw [h5] at hr'
                    exact absurd hr' (by simp)
              · refine Or.inr ⟨s0.blocks.length, ?_, rfl, ?_⟩
                · show s0.blocks.length < sd.blocks.length
                  omega
                · intro i hi
                  have h0 : i = 0 ∨ i = 1 ∨ i = 2 ∨ i = 3 := by omega
                  rcases h0 with h0 | h0 | h0 | h0 <;> subst h0
                  · exact ⟨_, q0⟩
                  · exact ⟨_, q1⟩
                  · exact ⟨_, q2⟩
                  · exact ⟨_, q3⟩
              · refine ⟨[(⟨s0.blocks.length, 0⟩, { d with next := none })],
                  ?_, ?_⟩
                · show NChain _ (some (⟨s0.blocks.length, 0⟩ : Ptr)) _
                  exact NChain.cons _ _ _ q0 NChain.nil
                · simp [sortedHashes]
    next oldh hgh0 =>
      have hgh00 : getHead s 0 = some oldh := by
        have hgh0' : getHead s0 0 = getHead s 0 := by
          unfold getHead
          rw [p_heads]
        rw [← hgh0']
        exact hgh0
      unfold HeadsOK at hheadsOK
      rcases hheadsOK with hnone | ⟨bb, hbb, hsheads, hdefs⟩
      · exfalso
        unfold getHead at hgh00
        rw [hnone] at hgh00
        simp at hgh00
      have hghbb : getHead s 0 = some (⟨bb, 0⟩ : Ptr) := by
        unfold getHead
        rw [hsheads]
        rfl
      have ho : oldh = ⟨bb, 0⟩ := by
        rw [hgh00] at hghbb
        exact Option.some_injective _ hghbb
      subst ho
      split at hres
      · exact absurd hres (by simp)
      next ohnd hroh =>
        have hs_oh : readCell s ⟨bb, 0⟩ = some ohnd := by
          rw [← p_frame ⟨bb, 0⟩ hbb]
          exact hroh
        split at hres
        next hcmple =>
          rcases hpop2 : popB true al1 with ⟨ok2, al2⟩
          rw [hpop2] at hres
          simp only [Nat.zero_add] at hres
          split at hres
          · cases hres
            exact hInvS0
          split at hres
          · exact absurd hres (by simp)
          next oh0 hro0 =>
            split at hres
            · exact absurd hres (by simp)
            next sa hwa =>
              split at hres
              · exact absurd hres (by simp)
              next oh1 hro1 =>
                split at hres
                · exact absurd hres (by simp)
                next sb hwb =>
                  split at hres
                  · exact absurd hres (by simp)
                  next oh2 hro2 =>
                    split at hres
                    · exact absurd hres (by simp)
                    next sc2 hwc =>
                      split at hres
                      · exact absurd hres (by simp)
                      next oh3 hro3 =>
                        split at hres
                        · exact absurd hres (by simp)
                        next sd hwd =>
                          split at hres
                          · exact absurd hres (by simp)
                          next s7 hw7 =>
                            cases hres
                            have hblt : bb < s0.blocks.length := by omega
                            have hfr1 : ∀ j : Nat,
                                readCell { s0 with blocks :=
                                  s0.blocks ++ [undefBlock] } ⟨bb, j⟩ =
                                readCell s ⟨bb, j⟩ := by
                              intro j
                              rw [readCell_append_old
                                (show (⟨bb, j⟩ : Ptr).blk <
                                  s0.blocks.length from hblt)]
                              exact p_frame ⟨bb, j⟩ hbb
                            have hne_bp : ∀ j j2 : Nat,
                                (⟨bb, j⟩ : Ptr) ≠
                                  ⟨s0.blocks.length, j2⟩ := by
                              intro j j2 hco
                              have h2 : bb = s0.blocks.length :=
                                congrArg Ptr.blk hco
                              omega
                            rw [hfr1 0] at hro0
                            rw [hs_oh] at hro0
                            injection hro0 with he0
                            rw [readCell_writeCell_ne hwa (hne_bp 1 0),
                              hfr1 1] at hro1
                            rw [readCell_writeCell_ne hwb (hne_bp 2 1),
                              readCell_writeCell_ne hwa (hne_bp 2 0),
                              hfr1 2] at hro2
                            rw [readCell_writeCell_ne hwc (hne_bp 3 2),
                              readCell_writeCell_ne hwb (hne_bp 3 1),
                              readCell_writeCell_ne hwa (hne_bp 3 0),
                              hfr1 3] at hro3
                            obtain ⟨q_len, q_heads, q_frame, q0, q1, q2,
                              q3, q_none⟩ :=
                              fresh_block_writes hwa hwb hwc hwd
                            obtain ⟨ndw, hrdw, hww⟩ := writeNext_cases hw7
                            have hndw : ndw =
                                { d with next := oh0.next } := by
                              have h0 : readCell sd ⟨s0.blocks.length, 0⟩ =
                                  some ndw := hrdw
                              rw [q0] at h0
                              injection h0 with he
                              exact he.symm
                            subst hndw
                            have hr7_0 : readCell s7
                                ⟨s0.blocks.length, 0⟩ =
                                some { d with next := some (⟨bb, 0⟩ : Ptr) } :=
                              readCell_writeCell_self hww
                            have hne10 : (⟨s0.blocks.length, 1⟩ : Ptr) ≠
                                ⟨s0.blocks.length, 0⟩ := by
                              intro hco
                              have h2 : (1 : Nat) = 0 :=
                                congrArg Ptr.slot hco
                              omega
                            have hne20 : (⟨s0.blocks.length, 2⟩ : Ptr) ≠
                                ⟨s0.blocks.length, 0⟩ := by
                              intro hco
                              have h2 : (2 : Nat) = 0 :=
                                congrArg Ptr.slot hco
                              omega
                            have hne30 : (⟨s0.blocks.length, 3⟩ : Ptr) ≠
                                ⟨s0.blocks.length, 0⟩ := by
                              intro hco
                              have h2 : (3 : Nat) = 0 :=
                                congrArg Ptr.slot hco
                              omega
                            have hr7_1 : readCell s7
                                ⟨s0.blocks.length, 1⟩ =
                                some { d with next := oh1.next } := by
                              rw [readCell_writeCell_ne hww hne10]
                              exact q1
                            have hr7_2 : readCell s7
                                ⟨s0.blocks.length, 2⟩ =
                                some { d with next := oh2.next } := by
                              rw [readCell_writeCell_ne hww hne20]
                              exact q2
                            have hr7_3 : readCell s7
                                ⟨s0.blocks.length, 3⟩ =
                                some { d with next := oh3.next } := by
                              rw [readCell_writeCell_ne hww hne30]
                              exact q3
                            have h7none : ∀ ps : Nat, 4 ≤ ps →
                                readCell s7 ⟨s0.blocks.length, ps⟩ =
                                  none := by
                              intro ps h4
                              have hne : (⟨s0.blocks.length, ps⟩ : Ptr) ≠
                                  ⟨s0.blocks.length, 0⟩ := by
                                intro hco
                                have h2 : ps = 0 := congrArg Ptr.slot hco
                                omega
                              rw [readCell_writeCell_ne hww hne]
                              exact q_none ⟨s0.blocks.length, ps⟩ rfl h4
                            have hfr7 : ∀ p : Ptr,
                                p.blk < s0.blocks.length →
                                readCell s7 p = readCell s0 p := by
                              intro p hp
                              have hnep : p ≠ ⟨s0.blocks.length, 0⟩ := by
                                intro hco
                                rw [hco] at hp
                                exact absurd (show s0.blocks.length <
                                  s0.blocks.length from hp) (by omega)
                              rw [readCell_writeCell_ne hww hnep]
                              exact q_frame p hp
                            have h7len : s7.blocks.length =
                                s0.blocks.length + 1 := by
                              rw [writeNext_length hw7]
                              exact q_len
                            have h7heads : s7.heads =
                                [some (⟨s0.blocks.length, 0⟩ : Ptr),
                                 some ⟨s0.blocks.length, 1⟩,
                                 some ⟨s0.blocks.length, 2⟩,
                                 some ⟨s0.blocks.length, 3⟩] := by
                              rw [writeNext_heads hw7]
                            have hclass7 : ∀ (ps : Nat) (ndp : Node),
                                ps < 4 →
                                readCell s7 ⟨s0.blocks.length, ps⟩ =
                                  some ndp →
                                (ps = 0 ∧
                                  ndp = { d with next := some (⟨bb, 0⟩ : Ptr) }) ∨
                                (ps = 1 ∧ ndp =
                                  { d with next := oh1.next }) ∨
                                (ps = 2 ∧ ndp =
                                  { d with next := oh2.next }) ∨
                                (ps = 3 ∧ ndp =
                                  { d with next := oh3.next }) := by
                              intro ps ndp h4 hrd
                              have h0 : ps = 0 ∨ ps = 1 ∨ ps = 2 ∨
                                  ps = 3 := by omega
                              rcases h0 with h0 | h0 | h0 | h0 <;> subst h0
                              · refine Or.inl ⟨rfl, ?_⟩
                                rw [hr7_0] at hrd
                                injection hrd with he
                                exact he.symm
                              · refine Or.inr (Or.inl ⟨rfl, ?_⟩)
                                rw [hr7_1] at hrd
                                injection hrd with he
                                exact he.symm
                              · refine Or.inr (Or.inr (Or.inl ⟨rfl, ?_⟩))
                                rw [hr7_2] at hrd
                                injection hrd with he
                                exact he.symm
                              · refine Or.inr (Or.inr (Or.inr ⟨rfl, ?_⟩))
                                rw [hr7_3] at hrd
                                injection hrd with he
                                exact he.symm
                            unfold SortedLane0 at hsortInv
                            obtain ⟨L, hL, hsort⟩ := hsortInv
                            rw [hgh00] at hL
                            have hL7 : NChain s7 (some (⟨bb, 0⟩ : Ptr))
                                L := by
                              refine NChain_frame hL ?_
                              intro x hx
                              have hxb : x.1.blk < s.blocks.length :=
                                readCell_blk_lt (NChain_read_mem hL hx)
                              rw [hfr7 x.1 (by omega)]
                              exact p_frame x.1 hxb
                            have hg7 : getHead s7 0 =
                                some (⟨s0.blocks.length, 0⟩ : Ptr) := by
                              unfold getHead
                              rw [h7heads]
                              rfl
                            have hchain7 : NChain s7 (getHead s7 0)
                                ((⟨s0.blocks.length, 0⟩,
                                  { d with next := some (⟨bb, 0⟩ : Ptr) })
                                  :: L) := by
                              rw [hg7]
                              exact NChain.cons _ _ _ hr7_0 hL7
                            have hsort7 : sortedHashes
                                ((⟨s0.blocks.length, 0⟩,
                                  { d with next := some (⟨bb, 0⟩ : Ptr) })
                                  :: L) := by
                              cases hL with
                              | cons p ndh L2 hrL hchL =>
                                have hndh : ndh = ohnd := by
                                  rw [hs_oh] at hrL
                                  injection hrL with he
                                  exact he.symm
                                have hle : d.hash ≤ ohnd.hash := by
                                  by_contra hlt
                                  have h2 := ((hc d.hash ohnd.hash).2.2).mpr
                                    (lt_of_not_le hlt)
                                  omega
                                unfold sortedHashes
                                simp only [List.map_cons, List.chain'_cons]
                                constructor
                                · show d.hash ≤ ndh.hash
                                  rw [hndh]
                                  exact hle
                                · exact hsort
                            refine ⟨⟨?_, ?_⟩, ?_, ?_⟩
                            · rintro ⟨pb, ps⟩ ndp hr q hq
                              have hr' : readCell s7 ⟨pb, ps⟩ =
                                  some ndp := hr
                              have hlt : pb < s0.blocks.length + 1 := by
                                have h3 : pb < s7.blocks.length :=
                                  readCell_blk_lt hr'
                                omega
                              by_cases hpb : pb < s0.blocks.length
                              · rw [hfr7 ⟨pb, ps⟩ hpb] at hr'
                                obtain ⟨hq1, hq2⟩ := p_next _ _ hr' q hq
                                refine ⟨hq1, ?_⟩
                                show q.blk < s7.blocks.length
                                omega
                              · have hpe : pb = s0.blocks.length := by omega
                                subst hpe
                                by_cases h4 : ps < 4
                                · rcases hclass7 ps ndp h4 hr' with
                                    ⟨hps, hnd2⟩ | ⟨hps, hnd2⟩ |
                                    ⟨hps, hnd2⟩ | ⟨hps, hnd2⟩
                                  · subst hps
                                    rw [hnd2] at hq
                                    have hq2 : some (⟨bb, 0⟩ : Ptr) =
                                        some q := hq
                                    injection hq2 with he
                                    refine ⟨?_, ?_⟩
                                    · rw [← he]
                                    · rw [← he]
                                      show bb < s7.blocks.length
                                      omega
                                  · subst hps
                                    rw [hnd2] at hq
                                    have hq2 : oh1.next = some q := hq
                                    obtain ⟨hq1, hqb⟩ :=
                                      hn _ _ hro1 q hq2
                                    refine ⟨?_, ?_⟩
                                    · rw [hq1]
                                    · show q.blk < s7.blocks.length
                                      omega
                                  · subst hps
                                    rw [hnd2] at hq
                                    have hq2 : oh2.next = some q := hq
                                    obtain ⟨hq1, hqb⟩ :=
                                      hn _ _ hro2 q hq2
                                    refine ⟨?_, ?_⟩
                                    · rw [hq1]
                                    · show q.blk < s7.blocks.length
                                      omega
                                  · subst hps
                                    rw [hnd2] at hq
                                    have hq2 : oh3.next = some q := hq
                                    obtain ⟨hq1, hqb⟩ :=
                                      hn _ _ hro3 q hq2
                                    refine ⟨?_, ?_⟩
                                    · rw [hq1]
                                    · show q.blk < s7.blocks.length
                                      omega
                                · rw [h7none ps (by omega)] at hr'
                                  exact absurd hr' (by simp)
                            · rintro ⟨pb, ps⟩ ndp hr
                              have hr' : readCell s7 ⟨pb, ps⟩ =
                                  some ndp := hr
                              have hlt : pb < s0.blocks.length + 1 := by
                                have h3 : pb < s7.blocks.length :=
                                  readCell_blk_lt hr'
                                omega
                              by_cases hpb : pb < s0.blocks.length
                              · rw [hfr7 ⟨pb, ps⟩ hpb] at hr'
                                obtain ⟨nd0, h0, hhash⟩ := p_hash _ _ hr'
                                refine ⟨nd0, ?_, hhash⟩
                                show readCell s7 ⟨pb, 0⟩ = some nd0
                                rw [hfr7 ⟨pb, 0⟩ hpb]
                                exact h0
                              · have hpe : pb = s0.blocks.length := by omega
                                subst hpe
                                by_cases h4 : ps < 4
                                · refine
                                    ⟨{ d with next := some (⟨bb, 0⟩ : Ptr) },
                                      ?_, ?_⟩
                                  · show readCell s7 ⟨s0.blocks.length, 0⟩ =
                                      some { d with next := some (⟨bb, 0⟩ : Ptr) }
                                    exact hr7_0
                                  · rcases hclass7 ps ndp h4 hr' with
                                      ⟨hps, hnd2⟩ | ⟨hps, hnd2⟩ |
                                      ⟨hps, hnd2⟩ | ⟨hps, hnd2⟩ <;>
                                      rw [hnd2]
                                · rw [h7none ps (by omega)] at hr'
                                  exact absurd hr' (by simp)
                            · refine Or.inr ⟨s0.blocks.length, ?_,
                                h7heads, ?_⟩
                              · show s0.blocks.length < s7.blocks.length
                                omega
                              · intro i hi
                                have h0 : i = 0 ∨ i = 1 ∨ i = 2 ∨
                                    i = 3 := by omega
                                rcases h0 with h0 | h0 | h0 | h0 <;>
                                  subst h0
                                · exact ⟨_, hr7_0⟩
                                · exact ⟨_, hr7_1⟩
                                · exact ⟨_, hr7_2⟩
                                · exact ⟨_, hr7_3⟩
                            · exact ⟨_, hchain7, hsort7⟩
        next hcmpgt =>
          split at hres
          · exact absurd hres (by simp)
          next s' rolls' hgo =>
            cases hres
            have hlt0 : 0 < cmp d.hash ohnd.hash := by omega
            have hgt : ohnd.hash < d.hash :=
              ((hc d.hash ohnd.hash).2.2).mp hlt0
            have hgh3 : getHead s0 3 = some (⟨bb, 3⟩ : Ptr) := by
              unfold getHead
              rw [p_heads, hsheads]
              rfl
            have hgh0s0 : getHead s0 0 = some (⟨bb, 0⟩ : Ptr) := by
              unfold getHead
              rw [p_heads, hsheads]
              rfl
            have hbbS : ∀ j : Nat, BlkBelow s0 d.hash (⟨bb, j⟩ : Ptr) := by
              intro j nd0 h0
              have h0a : readCell s0 ⟨bb, 0⟩ = some nd0 := h0
              rw [p_frame ⟨bb, 0⟩ hbb, hs_oh] at h0a
              injection h0a with he
              rw [← he]
              exact hgt
            have hh3' : ∀ q, getHead s0 3 = some q → q.slot = 3 ∧
                q.blk < s.blocks.length ∧ BlkBelow s0 d.hash q := by
              intro q hq
              rw [hgh3] at hq
              injection hq with he
              subst he
              exact ⟨rfl, hbb, hbbS 3⟩
            have hhd0' : ∀ q, getHead s0 0 = some q → q.slot = 0 ∧
                q.blk < s.blocks.length := by
              intro q hq
              rw [hgh0s0] at hq
              injection hq with he
              subst he
              exact ⟨rfl, hbb⟩
            unfold SortedLane0 at hsortInv
            obtain ⟨L, hL, hsort⟩ := hsortInv
            have hL0 : NChain s0 (getHead s0 0) L := by
              rw [hgh0s0]
              rw [hgh00] at hL
              refine NChain_frame hL ?_
              intro x hx
              exact p_frame x.1 (readCell_blk_lt (NChain_read_mem hL hx))
            obtain ⟨g_heads, g_len, g_next, g_hash, g_sorted, g_def⟩ :=
              slInsertGo_spec hc p_next p_hash p_self rfl rfl
                (Nat.le_refl s.blocks.length)
                (Nat.lt_succ_self s.blocks.length)
                (Nat.le_succ s.blocks.length) hh3' hhd0' hL0 hsort hgo
            refine ⟨⟨?_, g_hash⟩, ?_, g_sorted⟩
            · show NextOK s' s'.blocks.length
              rw [g_len, p_len]
              exact g_next
            · show HeadsOK s'
              refine Or.inr ⟨bb, ?_, ?_, ?_⟩
              · rw [g_len, p_len]
                omega
              · rw [g_heads, p_heads, hsheads]
              · intro i hi
                refine g_def ⟨bb, i⟩ ?_
                obtain ⟨x, hx⟩ := hdefs i hi
                refine ⟨x, ?_⟩
                rw [p_frame ⟨bb, i⟩ hbb]
                exact hx

set_option maxHeartbeats 1000000

/-- `cmpInt` satisfies the documented three-way contract. -/
theorem cmpInt_contract : CmpOK cmpInt := by
  intro a b
  unfold cmpInt
  rcases lt_trichotomy a b with h | h | h
  · rw [if_pos h]; omega
  · rw [if_neg (by omega), if_pos h]; omega
  · rw [if_neg (by omega), if_neg (by omega)]; omega

/-- Every read of the empty list is indeterminate. -/
theorem readCell_empty (p : Ptr) : readCell SL.empty p = none := by
  unfold readCell SL.empty
  simp

/-- The empty list satisfies the inductive invariant. -/
theorem SLInv_empty : SLInv SL.empty := by
  refine ⟨⟨?_, ?_⟩, Or.inl rfl, ⟨[], ?_, ?_⟩⟩
  · intro p nd hr
    rw [readCell_empty] at hr
    exact absurd hr (by simp)
  · intro p nd hr
    rw [readCell_empty] at hr
    exact absurd hr (by simp)
  · show NChain SL.empty none []
    exact NChain.nil
  · simp [sortedHashes]

/-- Any UB-free run of `sl_insert` calls preserves the invariant. -/
theorem runList_preserves {cmp : Int → Int → Int} (hc : CmpOK cmp) :
    ∀ {l : List Step} {s s2 : SL}, SLInv s →
      (∀ st ∈ l, st.data.next = none) →
      runList cmp s l = some s2 → SLInv s2 := by
  intro l
  induction l with
  | nil =>
    intro s s2 hinv hdn hres
    have h1 : runList cmp s ([] : List Step) = some s := rfl
    rw [h1] at hres
    cases hres
    exact hinv
  | cons st rest ih =>
    intro s s2 hinv hdn hres
    have h1 : runList cmp s (st :: rest) =
        match sl_insert cmp ⟨s, st.allocs, st.rolls⟩ (some st.data)
          st.fuel with
        | none => none
        | some (_, rt) => runList cmp rt.sl rest := rfl
    rw [h1] at hres
    rcases hins : sl_insert cmp ⟨s, st.allocs, st.rolls⟩ (some st.data)
        st.fuel with _ | ⟨bfl, rt⟩
    · rw [hins] at hres
      exact absurd hres (by simp)
    · rw [hins] at hres
      simp only at hres
      exact ih (sl_insert_preserves hc hinv (hdn st (by simp)) hins)
        (fun st2 hst2 => hdn st2 (List.mem_cons_of_mem _ hst2)) hres

/-- Claim C3 (confirmed).  For every state reachable from the empty list
by a UB-free sequence of `sl_insert` calls (elements as `pack` builds
them, `next = NULL`) under a contract-conforming comparator, the lane-0
chain is finite, NULL-terminated and its keys are non-decreasing. -/
theorem c3_lane0_sorted {cmp : Int → Int → Int} {l : List Step} {s2 : SL}
    (hc : CmpOK cmp) (hdn : ∀ st ∈ l, st.data.next = none)
    (hres : runList cmp SL.empty l = some s2) :
    ∃ L, NChain s2 (getHead s2 0) L ∧ sortedHashes L :=
  (runList_preserves hc SLInv_empty hdn hres).2.2

/-- Witness for C3: the run inserting 3 then 1 (a front insert after an
initial insert) reaches a state whose lane 0 is a sorted chain. -/
theorem c3_lane0_sorted_witness :
    CmpOK cmpInt ∧
    (∀ st ∈ [insStep 3 [], insStep 1 []], st.data.next = none) ∧
    runList cmpInt SL.empty [insStep 3 [], insStep 1 []] = some c3wS ∧
    ∃ L, NChain c3wS (getHead c3wS 0) L ∧ sortedHashes L := by
  refine ⟨cmpInt_contract, by simp [insStep, mkData], rfl, ?_⟩
  exact c3_lane0_sorted cmpInt_contract (by simp [insStep, mkData])
    (rfl : runList cmpInt SL.empty [insStep 3 [], insStep 1 []] =
      some c3wS)

/-- Claim C10 (confirmed).  In every reachable state the lane heads are
all NULL or all non-NULL together (the four slots of one block, all
holding the key of the lane-0 head); and any successful `sl_insert` into
the empty list sets all four lane heads at once. -/
theorem c10_heads_invariant {cmp : Int → Int → Int} {l : List Step}
    {s2 : SL} (hc : CmpOK cmp) (hdn : ∀ st ∈ l, st.data.next = none)
    (hres : runList cmp SL.empty l = some s2) :
    (s2.heads = [none, none, none, none] ∨
      ∃ bb, s2.heads = [some ⟨bb, 0⟩, some ⟨bb, 1⟩, some ⟨bb, 2⟩,
          some ⟨bb, 3⟩] ∧
        ∃ nd0, readCell s2 ⟨bb, 0⟩ = some nd0 ∧
          ∀ i, i < 4 → ∃ nd2, readCell s2 ⟨bb, i⟩ = some nd2 ∧
            nd2.hash = nd0.hash) ∧
    (∀ (d : Node) (al ro : List Bool) (fuel : Nat) (rt' : RT),
      sl_insert cmp ⟨SL.empty, al, ro⟩ (some d) fuel = some (true, rt') →
      ∃ bb, rt'.sl.heads = [some ⟨bb, 0⟩, some ⟨bb, 1⟩, some ⟨bb, 2⟩,
        some ⟨bb, 3⟩]) := by
  obtain ⟨⟨hnx, hhx⟩, hheads, _⟩ := runList_preserves hc SLInv_empty hdn hres
  constructor
  · unfold HeadsOK at hheads
    rcases hheads with h | ⟨bb, hlt, hsheads, hdefs⟩
    · exact Or.inl h
    · refine Or.inr ⟨bb, hsheads, ?_⟩
      obtain ⟨nd0, hnd0⟩ := hdefs 0 (by omega)
      refine ⟨nd0, hnd0, ?_⟩
      intro i hi
      obtain ⟨nd2, hnd2⟩ := hdefs i hi
      refine ⟨nd2, hnd2, ?_⟩
      obtain ⟨nd0', h0', hh'⟩ := hhx _ _ hnd2
      have h0'' : readCell s2 ⟨bb, 0⟩ = some nd0' := h0'
      rw [hnd0] at h0''
      injection h0'' with he
      rw [hh', ← he]
  · intro d al ro fuel rt' hins
    unfold sl_insert at hins
    rcases hp1 : popB true al with ⟨ok1, al1⟩
    rw [hp1] at hins
    simp only at hins
    split at hins
    · exact absurd hins (by simp)
    split at hins
    · exact absurd hins (by simp)
    next s0 hw0 =>
      have hgh : getHead s0 0 = none := by
        unfold getHead
        rw [writeCell_heads hw0]
        rfl
      split at hins
      next hgh0 =>
        rcases hp2 : popB true al1 with ⟨ok2, al2⟩
        rw [hp2] at hins
        simp only at hins
        split at hins
        · exact absurd hins (by simp)
        split at hins
        · exact absurd hins (by simp)
        next sa hwa =>
          split at hins
          · exact absurd hins (by simp)
          next sb hwb =>
            split at hins
            · exact absurd hins (by simp)
            next sc2 hwc =>
              split at hins
              · exact absurd hins (by simp)
              next sd hwd =>
                cases hins
                exact ⟨s0.blocks.length, rfl⟩
      next oldh hgh0 =>
        rw [hgh] at hgh0
        exact absurd hgh0 (by simp)

/-- Witness for C10: after inserting key 2 the heads are the four slots
of one block with equal keys, and the concrete first insert sets them. -/
theorem c10_heads_invariant_witness :
    CmpOK cmpInt ∧
    (∀ st ∈ [insStep 2 []], st.data.next = none) ∧
    runList cmpInt SL.empty [insStep 2 []] = some c10wS ∧
    (c10wS.heads = [none, none, none, none] ∨
      ∃ bb, c10wS.heads = [some ⟨bb, 0⟩, some ⟨bb, 1⟩, some ⟨bb, 2⟩,
          some ⟨bb, 3⟩] ∧
        ∃ nd0, readCell c10wS ⟨bb, 0⟩ = some nd0 ∧
          ∀ i, i < 4 → ∃ nd2, readCell c10wS ⟨bb, i⟩ = some nd2 ∧
            nd2.hash = nd0.hash) := by
  refine ⟨cmpInt_contract, by simp [insStep, mkData], rfl, ?_⟩
  have h9 := c10_heads_invariant cmpInt_contract
    (by simp [insStep, mkData])
    (rfl : runList cmpInt SL.empty [insStep 2 []] = some c10wS)
  exact h9.1

/-- Claim C6 (confirmed).  If `sl_insert` returns `false`, an allocation
failed (the allocation oracle contained a `false`), the lane heads are
unchanged, and every cell of the pre-state reads unchanged — no partial
splice.  (The failing call may leak an already-allocated node block, as
the C code leaks the corresponding `malloc`, but the list structure is
untouched.) -/
theorem c6_failure_unmodified {cmp : Int → Int → Int} {s : SL} {d : Node}
    {al ro : List Bool} {fuel : Nat} {rt2 : RT}
    (hres : sl_insert cmp ⟨s, al, ro⟩ (some d) fuel = some (false, rt2)) :
    false ∈ al ∧ rt2.sl.heads = s.heads ∧
    ∀ p : Ptr, p.blk < s.blocks.length →
      readCell rt2.sl p = readCell s p := by
  unfold sl_insert at hres
  rcases hp1 : popB true al with ⟨ok1, al1⟩
  rw [hp1] at hres
  simp only at hres
  split at hres
  next hok1 =>
    cases hres
    refine ⟨?_, rfl, fun p hp => rfl⟩
    subst hok1
    unfold popB at hp1
    rcases al with _ | ⟨a, rest⟩
    · simp only at hp1
      exact absurd hp1 (by simp)
    · simp only at hp1
      injection hp1 with hA hB
      rw [hA]
      exact List.mem_cons_self _ _
  split at hres
  · exact absurd hres (by simp)
  next s0 hw0 =>
    have hheads0 : s0.heads = s.heads :=
      Eq.trans (writeCell_heads hw0) rfl
    have hfr0 : ∀ p : Ptr, p.blk < s.blocks.length →
        readCell s0 p = readCell s p := by
      intro p hp
      have hnep : p ≠ ⟨s.blocks.length, 0⟩ := by
        intro hco
        rw [hco] at hp
        exact absurd (show s.blocks.length < s.blocks.length from hp)
          (by omega)
      rw [readCell_writeCell_ne hw0 hnep, readCell_append_old hp]
    have halmem : false ∈ al1 → false ∈ al := by
      intro hmem
      unfold popB at hp1
      rcases al with _ | ⟨a, rest⟩
      · simp only at hp1
        injection hp1 with hA hB
        rw [← hB] at hmem
        exact absurd hmem (by simp)
      · simp only at hp1
        injection hp1 with hA hB
        rw [← hB] at hmem
        exact List.mem_cons_of_mem _ hmem
    split at hres
    next hgh0 =>
      rcases hp2 : popB true al1 with ⟨ok2, al2⟩
      rw [hp2] at hres
      simp only at hres
      split at hres
      next hok2 =>
        cases hres
        refine ⟨?_, hheads0, hfr0⟩
        apply halmem
        subst hok2
        unfold popB at hp2
        rcases al1 with _ | ⟨a, rest⟩
        · simp only at hp2
          exact absurd hp2 (by simp)
        · simp only at hp2
          injection hp2 with hA hB
          rw [hA]
          exact List.mem_cons_self _ _
      split at hres
      · exact absurd hres (by simp)
      next sa hwa =>
        split at hres
        · exact absurd hres (by simp)
        next sb hwb =>
          split at hres
          · exact absurd hres (by simp)
          next sc2 hwc =>
            split at hres
            · exact absurd hres (by simp)
            next sd hwd =>
              exact absurd hres (by simp)
    next oldh hgh0 =>
      split at hres
      · exact absurd hres (by simp)
      next ohnd hroh =>
        split at hres
        next hcmple =>
          rcases hp2 : popB true al1 with ⟨ok2, al2⟩
          rw [hp2] at hres
          simp only at hres
          split at hres
          next hok2 =>
            cases hres
            refine ⟨?_, hheads0, hfr0⟩
            apply halmem
            subst hok2
            unfold popB at hp2
            rcases al1 with _ | ⟨a, rest⟩
            · simp only at hp2
              exact absurd hp2 (by simp)
            · simp only at hp2
              injection hp2 with hA hB
              rw [hA]
              exact List.mem_cons_self _ _
          split at hres
          · exact absurd hres (by simp)
          next oh0 hro0 =>
            split at hres
            · exact absurd hres (by simp)
            next sa hwa =>
              split at hres
              · exact absurd hres (by simp)
              next oh1 hro1 =>
                split at hres
                · exact absurd hres (by simp)
                next sb hwb =>
                  split at hres
                  · exact absurd hres (by simp)
                  next oh2 hro2 =>
                    split at hres
                    · exact absurd hres (by simp)
                    next sc2 hwc =>
                      split at hres
                      · exact absurd hres (by simp)
                      next oh3 hro3 =>
                        split at hres
                        · exact absurd hres (by simp)
                        next sd hwd =>
                          split at hres
                          · exact absurd hres (by simp)
                          next s7 hw7 =>
                            exact absurd hres (by simp)
        next hcmpgt =>
          split at hres
          · exact absurd hres (by simp)
          next s' rolls' hgo =>
            exact absurd hres (by simp)

/-- Witness for C6: a first-allocation failure on the empty list. -/
theorem c6_failure_unmodified_witness :
    sl_insert cmpInt ⟨SL.empty, [false], []⟩ (some (mkData 1)) 100 =
      some (false, ⟨SL.empty, [], []⟩) ∧
    (false ∈ [false] ∧
      (⟨SL.empty, [], []⟩ : RT).sl.heads = SL.empty.heads ∧
      ∀ p : Ptr, p.blk < SL.empty.blocks.length →
        readCell (⟨SL.empty, [], []⟩ : RT).sl p = readCell SL.empty p) :=
  ⟨rfl, c6_failure_unmodified
    (rfl : sl_insert cmpInt ⟨SL.empty, [false], []⟩ (some (mkData 1)) 100 =
      some (false, ⟨SL.empty, [], []⟩))⟩

/-- Claim C5 as amended.  A front insert (non-empty list, new key ≤ the
lane-0 head key, allocations succeeding) allocates one fresh block and
makes its four slots the new lane heads; the lane-0 copy links to the old
head block's slot 0 (the prior lane-0 head remains immediately after the
new node), but the copies in lanes 1-3 link to the *successor* of the old
head in that lane, so the prior heads of lanes above 0 are dropped from
their lanes; all pre-existing cells are unchanged. -/
theorem c5_amended_front_insert {cmp : Int → Int → Int} {s : SL}
    {d : Node} {ro : List Bool} {fuel : Nat} {bflag : Bool} {rt2 : RT}
    {bb : Nat} {n0 n1 n2 n3 : Node}
    (hheads : s.heads = [some ⟨bb, 0⟩, some ⟨bb, 1⟩, some ⟨bb, 2⟩,
      some ⟨bb, 3⟩])
    (hbb : bb < s.blocks.length)
    (h0 : readCell s ⟨bb, 0⟩ = some n0)
    (h1 : readCell s ⟨bb, 1⟩ = some n1)
    (h2 : readCell s ⟨bb, 2⟩ = some n2)
    (h3 : readCell s ⟨bb, 3⟩ = some n3)
    (hcmp : cmp d.hash n0.hash ≤ 0)
    (hres : sl_insert cmp ⟨s, [], ro⟩ (some d) fuel = some (bflag, rt2)) :
    bflag = true ∧
    rt2.sl.heads = [some ⟨s.blocks.length + 1, 0⟩,
      some ⟨s.blocks.length + 1, 1⟩, some ⟨s.blocks.length + 1, 2⟩,
      some ⟨s.blocks.length + 1, 3⟩] ∧
    readCell rt2.sl ⟨s.blocks.length + 1, 0⟩ =
      some { d with next := some (⟨bb, 0⟩ : Ptr) } ∧
    readCell rt2.sl ⟨s.blocks.length + 1, 1⟩ =
      some { d with next := n1.next } ∧
    readCell rt2.sl ⟨s.blocks.length + 1, 2⟩ =
      some { d with next := n2.next } ∧
    readCell rt2.sl ⟨s.blocks.length + 1, 3⟩ =
      some { d with next := n3.next } ∧
    ∀ p : Ptr, p.blk < s.blocks.length →
      readCell rt2.sl p = readCell s p := by
  unfold sl_insert at hres
  rcases hp1 : popB true ([] : List Bool) with ⟨ok1, al1⟩
  rw [hp1] at hres
  simp only at hres
  have hb1 : ok1 = true := by
    have h9 : (true, ([] : List Bool)) = (ok1, al1) := hp1
    exact (congrArg Prod.fst h9).symm
  have hl1 : al1 = [] := by
    have h9 : (true, ([] : List Bool)) = (ok1, al1) := hp1
    exact (congrArg Prod.snd h9).symm
  subst hb1 hl1
  split at hres
  next hco => exact absurd hco (by decide)
  split at hres
  · exact absurd hres (by simp)
  next s0 hw0 =>
    have hheads0 : s0.heads = s.heads :=
      Eq.trans (writeCell_heads hw0) rfl
    have hlen0 : s0.blocks.length = s.blocks.length + 1 := by
      rw [writeCell_length hw0]
      simp
    have hfr0 : ∀ p : Ptr, p.blk < s.blocks.length →
        readCell s0 p = readCell s p := by
      intro p hp
      have hnep : p ≠ ⟨s.blocks.length, 0⟩ := by
        intro hco
        rw [hco] at hp
        exact absurd (show s.blocks.length < s.blocks.length from hp)
          (by omega)
      rw [readCell_writeCell_ne hw0 hnep, readCell_append_old hp]
    split at hres
    next hgh0 =>
      exfalso
      unfold getHead at hgh0
      rw [hheads0, hheads] at hgh0
      simp at hgh0
    next oldh hgh0 =>
      have hgh' : getHead s0 0 = some (⟨bb, 0⟩ : Ptr) := by
        unfold getHead
        rw [hheads0, hheads]
        rfl
      rw [hgh'] at hgh0
      have ho : oldh = ⟨bb, 0⟩ := (Option.some_injective _ hgh0).symm
      subst ho
      split at hres
      · exact absurd hres (by simp)
      next ohnd hroh =>
        have hohnd : ohnd = n0 := by
          rw [hfr0 ⟨bb, 0⟩ hbb, h0] at hroh
          exact (Option.some_injective _ hroh).symm
        subst hohnd
        split at hres
        next hcmple =>
          rcases hp2 : popB true ([] : List Bool) with ⟨ok2, al2⟩
          rw [hp2] at hres
          simp only [Nat.zero_add] at hres
          have hb2 : ok2 = true := by
            have h9 : (true, ([] : List Bool)) = (ok2, al2) := hp2
            exact (congrArg Prod.fst h9).symm
          split at hres
          next hco =>
            rw [hb2] at hco
            exact absurd hco (by decide)
          split at hres
          · exact absurd hres (by simp)
          next oh0 hro0 =>
            split at hres
            · exact absurd hres (by simp)
            next sa hwa =>
              split at hres
              · exact absurd hres (by simp)
              next oh1 hro1 =>
                split at hres
                · exact absurd hres (by simp)
                next sb hwb =>
                  split at hres
                  · exact absurd hres (by simp)
                  next oh2 hro2 =>
                    split at hres
                    · exact absurd hres (by simp)
                    next sc2 hwc =>
                      split at hres
                      · exact absurd hres (by simp)
                      next oh3 hro3 =>
                        split at hres
                        · exact absurd hres (by simp)
                        next sd hwd =>
                          split at hres
                          · exact absurd hres (by simp)
                          next s7 hw7 =>
                            cases hres
                            have hblt : bb < s0.blocks.length := by omega
                            have hfr1 : ∀ j : Nat,
                                readCell { s0 with blocks :=
                                  s0.blocks ++ [undefBlock] } ⟨bb, j⟩ =
                                readCell s ⟨bb, j⟩ := by
                              intro j
                              rw [readCell_append_old
                                (show (⟨bb, j⟩ : Ptr).blk <
                                  s0.blocks.length from hblt)]
                              exact hfr0 ⟨bb, j⟩ hbb
                            have hne_bp : ∀ j j2 : Nat,
                                (⟨bb, j⟩ : Ptr) ≠
                                  ⟨s0.blocks.length, j2⟩ := by
                              intro j j2 hco
                              have h9 : bb = s0.blocks.length :=
                                congrArg Ptr.blk hco
                              omega
                            rw [hfr1 0, h0] at hro0
                            have he0 : oh0 = ohnd :=
                              (Option.some_injective _ hro0).symm
                            subst he0
                            rw [readCell_writeCell_ne hwa (hne_bp 1 0),
                              hfr1 1, h1] at hro1
                            have he1 : oh1 = n1 :=
                              (Option.some_injective _ hro1).symm
                            subst he1
                            rw [readCell_writeCell_ne hwb (hne_bp 2 1),
                              readCell_writeCell_ne hwa (hne_bp 2 0),
                              hfr1 2, h2] at hro2
                            have he2 : oh2 = n2 :=
                              (Option.some_injective _ hro2).symm
                            subst he2
                            rw [readCell_writeCell_ne hwc (hne_bp 3 2),
                              readCell_writeCell_ne hwb (hne_bp 3 1),
                              readCell_writeCell_ne hwa (hne_bp 3 0),
                              hfr1 3, h3] at hro3
                            have he3 : oh3 = n3 :=
                              (Option.some_injective _ hro3).symm
                            subst he3
                            obtain ⟨q_len, q_heads, q_frame, q0, q1, q2,
                              q3, q_none⟩ :=
                              fresh_block_writes hwa hwb hwc hwd
                            obtain ⟨ndw, hrdw, hww⟩ := writeNext_cases hw7
                            have hndw : ndw =
                                { d with next := oh0.next } := by
                              have h9 : readCell sd
                                  ⟨s0.blocks.length, 0⟩ = some ndw := hrdw
                              rw [q0] at h9
                              injection h9 with he
                              exact he.symm
                            subst hndw
                            have hr7_0 : readCell s7
                                ⟨s0.blocks.length, 0⟩ =
                                some { d with next := some (⟨bb, 0⟩ : Ptr) } :=
                              readCell_writeCell_self hww
                            have hne10 : (⟨s0.blocks.length, 1⟩ : Ptr) ≠
                                ⟨s0.blocks.length, 0⟩ := by
                              intro hco
                              have h9 : (1 : Nat) = 0 :=
                                congrArg Ptr.slot hco
                              omega
                            have hne20 : (⟨s0.blocks.length, 2⟩ : Ptr) ≠
                                ⟨s0.blocks.length, 0⟩ := by
                              intro hco
                              have h9 : (2 : Nat) = 0 :=
                                congrArg Ptr.slot hco
                              omega
                            have hne30 : (⟨s0.blocks.length, 3⟩ : Ptr) ≠
                                ⟨s0.blocks.length, 0⟩ := by
                              intro hco
                              have h9 : (3 : Nat) = 0 :=
                                congrArg Ptr.slot hco
                              omega
                            have hr7_1 : readCell s7
                                ⟨s0.blocks.length, 1⟩ =
                                some { d with next := oh1.next } := by
                              rw [readCell_writeCell_ne hww hne10]
                              exact q1
                            have hr7_2 : readCell s7
                                ⟨s0.blocks.length, 2⟩ =
                                some { d with next := oh2.next } := by
                              rw [readCell_writeCell_ne hww hne20]
                              exact q2
                            have hr7_3 : readCell s7
                                ⟨s0.blocks.length, 3⟩ =
                                some { d with next := oh3.next } := by
                              rw [readCell_writeCell_ne hww hne30]
                              exact q3
                            have h7heads : s7.heads =
                                [some (⟨s0.blocks.length, 0⟩ : Ptr),
                                 some ⟨s0.blocks.length, 1⟩,
                                 some ⟨s0.blocks.length, 2⟩,
                                 some ⟨s0.blocks.length, 3⟩] := by
                              rw [writeNext_heads hw7]
                            have hfrS : ∀ p : Ptr,
                                p.blk < s.blocks.length →
                                readCell s7 p = readCell s p := by
                              intro p hp
                              have hnep : p ≠ ⟨s0.blocks.length, 0⟩ := by
                                intro hco
                                rw [hco] at hp
                                have h9 : s0.blocks.length <
                                    s.blocks.length := hp
                                omega
                              rw [readCell_writeCell_ne hww hnep]
                              have hq9 : readCell sd p = readCell s0 p :=
                                q_frame p (by omega)
                              exact Eq.trans hq9 (hfr0 p hp)
                            refine ⟨rfl, ?_, ?_, ?_, ?_, ?_, hfrS⟩
                            · rw [← hlen0]
                              exact h7heads
                            · rw [← hlen0]
                              exact hr7_0
                            · rw [← hlen0]
                              exact hr7_1
                            · rw [← hlen0]
                              exact hr7_2
                            · rw [← hlen0]
                              exact hr7_3
        next hcmpgt =>
          exact absurd hcmp hcmpgt

/-- Witness for C5 as amended: inserting key 3 in front of the singleton
list holding key 5. -/
theorem c5_amended_front_insert_witness :
    (c5wS.heads = [some ⟨1, 0⟩, some ⟨1, 1⟩, some ⟨1, 2⟩, some ⟨1, 3⟩] ∧
      1 < c5wS.blocks.length ∧
      readCell c5wS ⟨1, 0⟩ = some (nd 5 none) ∧
      readCell c5wS ⟨1, 1⟩ = some (nd 5 none) ∧
      cmpInt (mkData 3).hash (nd 5 none).hash ≤ 0) ∧
    ∃ bflag rt2,
      sl_insert cmpInt ⟨c5wS, [], []⟩ (some (mkData 3)) 100 =
        some (bflag, rt2) ∧
      bflag = true ∧
      rt2.sl.heads = [some ⟨3, 0⟩, some ⟨3, 1⟩, some ⟨3, 2⟩,
        some ⟨3, 3⟩] ∧
      readCell rt2.sl ⟨3, 0⟩ =
        some { mkData 3 with next := some (⟨1, 0⟩ : Ptr) } ∧
      readCell rt2.sl ⟨3, 1⟩ =
        some { mkData 3 with next := (nd 5 none).next } := by
  refine ⟨⟨rfl, by decide, rfl, rfl, by decide⟩, _, _, rfl, ?_⟩
  have hth := c5_amended_front_insert
    (rfl : c5wS.heads = [some ⟨1, 0⟩, some ⟨1, 1⟩, some ⟨1, 2⟩,
      some ⟨1, 3⟩])
    (by decide)
    (rfl : readCell c5wS ⟨1, 0⟩ = some (nd 5 none))
    (rfl : readCell c5wS ⟨1, 1⟩ = some (nd 5 none))
    (rfl : readCell c5wS ⟨1, 2⟩ = some (nd 5 none))
    (rfl : readCell c5wS ⟨1, 3⟩ = some (nd 5 none))
    (by decide)
    (rfl : sl_insert cmpInt ⟨c5wS, [], []⟩ (some (mkData 3)) 100 = _)
  exact ⟨hth.1, hth.2.1, hth.2.2.1, hth.2.2.2.1⟩
